import Mathlib

/-!
# Olive: timeline track layout and the project tree model

A shallow embedding of two presentation-layer units of the editor:

* `TimelineView` (`app/widget/timelinewidget/view/timelineview.cpp`): the vertical
  track layout functions `GetTrackHeight`, `GetTrackY` and `SceneToTrack`;
* `ProjectViewModel` (`app/project/projectviewmodel.cpp`): `index`, `parent`,
  `rowCount`, `columnCount`, `indexOfChild`, `mimeData` and `dropMimeData`.

Conventions of the embedding.

* A C++ `int` is a 32-bit two-complement integer: its values are the `Int`s between
  `INT_MIN` and `INT_MAX`, and every `int` addition, increment and negation of the
  layout functions is reduced by `wrapInt`, as the compiled code computes it.
* The `double` argument of `SceneToTrack` is a rational number: every finite double
  is one, and the conversion of a 32-bit `int` to `double` in `y > heights` is exact.
* A pointer to an `Item` is `Option Nat`: `none` is `nullptr`, `some a` the object at
  address `a`.  Functions that may dereference a null pointer or read a vector out of
  range return `Option`; `none` stands for that failure.
* The `do … while` loop of `SceneToTrack` has no static bound, so it takes fuel;
  `none` also stands for exhausted fuel.
-/

namespace Olive

/-! ## Machine integers -/

/-- Largest value of a 32-bit `int`. -/
def INT_MAX : Int := 2147483647

/-- Smallest value of a 32-bit `int`. -/
def INT_MIN : Int := -2147483648

/-- Reduction of a mathematical result to the 32-bit `int` that the machine stores. -/
def wrapInt (x : Int) : Int := (x + 2147483648) % 4294967296 - 2147483648

/-- The mathematical integer `x` is the value of some `int`. -/
def InInt (x : Int) : Prop := INT_MIN ≤ x ∧ x ≤ INT_MAX

instance (x : Int) : Decidable (InInt x) := by
  unfold InInt
  infer_instance

/-! ## Timeline view -/

namespace Qt

/-- Value of `Qt::AlignLeft`. -/
def AlignLeft : Nat := 0x0001

/-- Value of `Qt::AlignTop`. -/
def AlignTop : Nat := 0x0020

/-- Value of `Qt::AlignBottom`. -/
def AlignBottom : Nat := 0x0040

end Qt

/-- The `TrackList` a view is connected to, seen through the only thing the view reads from
it: the ordered pixel heights of its tracks (`TrackAt(i)->GetTrackHeight()`). -/
structure TrackList where
  heights : List Int
deriving DecidableEq, Repr

/-- Number of tracks, `TrackList::TrackCount()`. -/
def TrackList.TrackCount (l : TrackList) : Int := l.heights.length

/-- The height of the track at `index`, `TrackList::TrackAt(index)->GetTrackHeight()`.
An index outside `0 .. TrackCount()-1` is an out-of-range read: `none`. -/
def TrackList.TrackAt (l : TrackList) (index : Int) : Option Int :=
  if 0 ≤ index then l.heights[index.toNat]? else none

/-- The state of a `TimelineView` that the layout functions read: the alignment flags
installed by the constructor, the connected track list (`none` is `nullptr`), and the value
of the static `TrackOutput::GetDefaultTrackHeight()`, which is declared outside these sources
and is therefore a parameter. -/
structure TimelineView where
  alignment : Nat
  connected_track_list_ : Option TrackList
  defaultTrackHeight : Int
deriving DecidableEq, Repr

/-- The constructor: `setAlignment(Qt::AlignLeft | vertical_alignment)`, no list connected. -/
def TimelineView.new (vertical_alignment : Nat) (defaultTrackHeight : Int) : TimelineView :=
  { alignment := Qt.AlignLeft ||| vertical_alignment
    connected_track_list_ := none
    defaultTrackHeight := defaultTrackHeight }

/-- `TimelineView::ConnectTrackList`. -/
def TimelineView.ConnectTrackList (v : TimelineView) (list : Option TrackList) : TimelineView :=
  { v with connected_track_list_ := list }

/-- The test `alignment() & Qt::AlignBottom`. -/
def TimelineView.alignedBottom (v : TimelineView) : Bool :=
  v.alignment &&& Qt.AlignBottom != 0

/-- `TimelineView::GetTrackHeight`. -/
def TimelineView.GetTrackHeight (v : TimelineView) (track_index : Int) : Option Int :=
  match v.connected_track_list_ with
  | none => some v.defaultTrackHeight
  | some l =>
    if track_index ≥ l.TrackCount then some v.defaultTrackHeight
    else l.TrackAt track_index

/-- The loop `for (int i=0;i<track_index;i++) y += GetTrackHeight(i);` of `GetTrackY`,
entered at `i` with accumulator `y`. -/
def TimelineView.GetTrackY.loop (v : TimelineView) (track_index : Int) :
    Nat → Int → Int → Option Int
  | 0, _, _ => none
  | fuel + 1, i, y =>
    if i < track_index then
      match v.GetTrackHeight i with
      | none => none
      | some h =>
        TimelineView.GetTrackY.loop v track_index fuel (wrapInt (i + 1)) (wrapInt (y + h))
    else some y

/-- `TimelineView::GetTrackY`.  The loop runs at most `track_index` times, which is the fuel
it is given. -/
def TimelineView.GetTrackY (v : TimelineView) (track_index : Int) : Option Int :=
  let track_index := if v.alignedBottom then wrapInt (track_index + 1) else track_index
  match TimelineView.GetTrackY.loop v track_index (track_index.toNat + 1) 0 0 with
  | none => none
  | some y => some (if v.alignedBottom then wrapInt (-y) else y)

/-- The loop `do { track++; heights += GetTrackHeight(track); } while (y > heights);`. -/
def TimelineView.SceneToTrack.loop (v : TimelineView) (y : ℚ) : Nat → Int → Int → Option Int
  | 0, _, _ => none
  | fuel + 1, track, heights =>
    let track := wrapInt (track + 1)
    match v.GetTrackHeight track with
    | none => none
    | some h =>
      let heights := wrapInt (heights + h)
      if y > (heights : ℚ) then TimelineView.SceneToTrack.loop v y fuel track heights
      else some track

/-- `TimelineView::SceneToTrack`, with `fuel` bounding the number of loop iterations. -/
def TimelineView.SceneToTrack (v : TimelineView) (fuel : Nat) (y : ℚ) : Option Int :=
  let y := if v.alignedBottom then -y else y
  TimelineView.SceneToTrack.loop v y fuel (-1) 0

/-- A top-aligned view connected to two tracks of heights 40 and 60. -/
def viewTop4060 : TimelineView :=
  (TimelineView.new Qt.AlignTop 40).ConnectTrackList (some ⟨[40, 60]⟩)

/-- A bottom-aligned view connected to two tracks of height 40. -/
def viewBottom4040 : TimelineView :=
  (TimelineView.new Qt.AlignBottom 40).ConnectTrackList (some ⟨[40, 40]⟩)

/-- A top-aligned view connected to two tracks of height 2000000000, with default height
1000000000: the cumulative heights leave the range of `int` at the second track. -/
def viewOverflow : TimelineView :=
  (TimelineView.new Qt.AlignTop 1000000000).ConnectTrackList
    (some ⟨[2000000000, 2000000000]⟩)

/-- The height the view reports for the track with index `j ≥ 0`; `GetTrackHeight` never
fails there (`GetTrackHeight_natCast`). -/
def TimelineView.trackHeight (v : TimelineView) (j : Nat) : Int :=
  (v.GetTrackHeight j).getD v.defaultTrackHeight

/-- All heights the view can report are positive: those of the connected tracks and the
default height. -/
def TimelineView.HeightsPositive (v : TimelineView) : Prop :=
  0 < v.defaultTrackHeight ∧
    ∀ l, v.connected_track_list_ = some l → ∀ h ∈ l.heights, 0 < h

/-- Cumulative height of the first `n` tracks. -/
def TimelineView.cum (v : TimelineView) (n : Nat) : Int :=
  ∑ j in Finset.range n, v.trackHeight j

/-! ## Project tree model -/

/-- Modelled from the spec: the discriminated type of an `Item` ("Folder | Footage |
Sequence"), whose declaration (`Item::Type`) is outside these sources. -/
inductive ItemType where
  | kFolder
  | kFootage
  | kSequence
deriving DecidableEq, Repr

/-- A pointer to an `Item`: `none` is `nullptr`, `some a` the object at address `a`. -/
abbrev ItemPtr := Option Nat

/-- Modelled from the spec: an `Item` object, whose class is declared outside these sources;
of its attributes the model reads the type, the ordered sequence of children and the
non-owning back-reference to the parent. -/
structure Item where
  type : ItemType
  parent_ : ItemPtr
  children_ : List Nat
deriving DecidableEq, Repr

/-- The memory holding the `Item` objects: the object at address `a` is the `a`-th entry. -/
abbrev Heap := List Item

/-- Dereference of an `Item*`; `none` for a null pointer or an address with no object. -/
def Heap.deref (h : Heap) (p : ItemPtr) : Option Item :=
  match p with
  | none => none
  | some a => h[a]?

/-- `Item::child_count()`. -/
def Item.child_count (it : Item) : Int := it.children_.length

/-- `Item::child(i)`; an index outside `0 .. child_count()-1` is an out-of-range read. -/
def Item.child (it : Item) (i : Int) : Option ItemPtr :=
  if 0 ≤ i then (it.children_[i.toNat]?).map some else none

/-- Modelled from the spec: `Item::set_parent(p)`, defined outside these sources, "performs
the reparent": the item leaves the child sequence of its current parent, is appended to the
child sequence of `p` (child order is insertion order) and its back-reference becomes `p`. -/
def Heap.set_parent (h : Heap) (item : Nat) (p : Nat) : Option Heap :=
  match h[item]?, h[p]? with
  | some it, some _ =>
    let h1 : Heap :=
      match it.parent_ with
      | none => h
      | some q => h.modify (fun o => { o with children_ := o.children_.filter (· ≠ item) }) q
    let h2 : Heap := h1.modify (fun o => { o with children_ := o.children_ ++ [item] }) p
    some (h2.modify (fun o => { o with parent_ := some p }) item)
  | _, _ => none

/-- The `Project` object, of which the model reads only `root()`, the address of the root
`Item`. -/
structure Project where
  root : Nat
deriving DecidableEq, Repr

/-- The kinds of column, `ColumnType`. -/
inductive ColumnType where
  | kName
  | kDuration
  | kRate
deriving DecidableEq, Repr

/-- The state of a `ProjectViewModel`: the attached project (`none` is `nullptr`) and the
column kinds. -/
structure ProjectViewModel where
  project_ : Option Project
  columns_ : List ColumnType
deriving DecidableEq, Repr

/-- The constructor: no project, columns Name, Duration, Rate. -/
def ProjectViewModel.new : ProjectViewModel :=
  { project_ := none
    columns_ := [ColumnType.kName, ColumnType.kDuration, ColumnType.kRate] }

/-- `ProjectViewModel::set_project` (the reset notifications are not recorded). -/
def ProjectViewModel.set_project (m : ProjectViewModel) (p : Option Project) : ProjectViewModel :=
  { m with project_ := p }

/-- The toolkit locator `QModelIndex`: row, column, internal pointer and whether it carries
this model (`false` is the null model pointer of a default-constructed index). -/
structure QModelIndex where
  row : Int
  column : Int
  internalPointer : ItemPtr
  model : Bool
deriving DecidableEq, Repr

/-- The default-constructed, invalid locator `QModelIndex()`. -/
def QModelIndex.invalid : QModelIndex :=
  { row := -1, column := -1, internalPointer := none, model := false }

/-- `QModelIndex::isValid()`: `(r >= 0) && (c >= 0) && (m != nullptr)`. -/
def QModelIndex.isValid (ix : QModelIndex) : Bool :=
  decide (0 ≤ ix.row) && decide (0 ≤ ix.column) && ix.model

/-- `QAbstractItemModel::createIndex(row, column, ptr)`. -/
def createIndex (row column : Int) (ptr : ItemPtr) : QModelIndex :=
  { row := row, column := column, internalPointer := ptr, model := true }

/-- `ProjectViewModel::rowCount`. -/
def ProjectViewModel.rowCount (m : ProjectViewModel) (h : Heap) (parent : QModelIndex) :
    Option Int :=
  match m.project_ with
  | none => some 0
  | some project =>
    if parent = QModelIndex.invalid then
      (h.deref (some project.root)).map Item.child_count
    else
      (h.deref parent.internalPointer).map Item.child_count

/-- `ProjectViewModel::columnCount`. -/
def ProjectViewModel.columnCount (m : ProjectViewModel) : Int :=
  match m.project_ with
  | none => 0
  | some _ => m.columns_.length

/-- The toolkit function `QAbstractItemModel::hasIndex`:
`if (row < 0 || column < 0) return false;
 return row < rowCount(parent) && column < columnCount(parent);`. -/
def ProjectViewModel.hasIndex (m : ProjectViewModel) (h : Heap) (row column : Int)
    (parent : QModelIndex) : Option Bool :=
  if row < 0 ∨ column < 0 then some false
  else
    match m.rowCount h parent with
    | none => none
    | some rows => some (decide (row < rows) && decide (column < m.columnCount))

/-- `ProjectViewModel::index`. -/
def ProjectViewModel.index (m : ProjectViewModel) (h : Heap) (row column : Int)
    (parent : QModelIndex) : Option QModelIndex :=
  match m.hasIndex h row column parent with
  | none => none
  | some false => some QModelIndex.invalid
  | some true =>
    let item_parent : Option ItemPtr :=
      if parent.isValid then some parent.internalPointer
      else m.project_.map (fun project => some project.root)
    match item_parent with
    | none => none
    | some item_parent =>
      match h.deref item_parent with
      | none => none
      | some it =>
        match it.child row with
        | none => none
        | some c => some (createIndex row column c)

/-- The scan `for (int i=0;i<parent->child_count();i++) if (parent->child(i) == item) return i;`
of `indexOfChild`, entered at index `i` with the children from `i` on; `-1` when the scan
ends. -/
def ProjectViewModel.indexOfChild.loop (item : Nat) : List Nat → Int → Int
  | [], _ => -1
  | c :: cs, i => if c = item then i else ProjectViewModel.indexOfChild.loop item cs (i + 1)

/-- `ProjectViewModel::indexOfChild`. -/
def ProjectViewModel.indexOfChild (h : Heap) (item : ItemPtr) : Option Int :=
  match item, h.deref item with
  | some a, some it =>
    match it.parent_ with
    | none => some (-1)
    | some q =>
      match h[q]? with
      | none => none
      | some par => some (ProjectViewModel.indexOfChild.loop a par.children_ 0)
  | _, _ => none

/-- `ProjectViewModel::parent`; a violated `Q_ASSERT(parent_index > -1)` is a failure. -/
def ProjectViewModel.parent (m : ProjectViewModel) (h : Heap) (child : QModelIndex) :
    Option QModelIndex :=
  match h.deref child.internalPointer, m.project_ with
  | some item, some project =>
    let par := item.parent_
    if par = some project.root then some QModelIndex.invalid
    else
      match ProjectViewModel.indexOfChild h par with
      | none => none
      | some parent_index =>
        if parent_index > -1 then some (createIndex parent_index 0 par) else none
  | _, _ => none

/-- The private MIME type of the drag payload. -/
def mimeType : String := "application/x-oliveprojectitemdata"

/-- The decoded content of the payload byte array: the `(row, item reference)` pairs written
by `stream << index.row() << quintptr(ptr)` and read back by `stream >> r >> item_ptr`. -/
abbrev Payload := List (Int × ItemPtr)

/-- A `QMimeData` object: the data stored under each format. -/
abbrev MimeData := List (String × Payload)

/-- `QMimeData::formats()`. -/
def MimeData.formats (d : MimeData) : List String := d.map Prod.fst

/-- `QMimeData::data(format)`: the stored data, empty when the format is absent. -/
def MimeData.data (d : MimeData) (format : String) : Payload :=
  match d.lookup format with
  | some p => p
  | none => []

/-- The `foreach` loop of `mimeData`, with the stream written so far and the vector
`dragged_items`. -/
def ProjectViewModel.mimeData.loop : List QModelIndex → Payload → List ItemPtr → Payload
  | [], stream, _ => stream
  | index :: rest, stream, dragged_items =>
    if index.isValid then
      if !dragged_items.contains index.internalPointer then
        ProjectViewModel.mimeData.loop rest (stream ++ [(index.row, index.internalPointer)])
          (dragged_items ++ [index.internalPointer])
      else ProjectViewModel.mimeData.loop rest stream dragged_items
    else ProjectViewModel.mimeData.loop rest stream dragged_items

/-- `ProjectViewModel::mimeData`. -/
def ProjectViewModel.mimeData (indexes : List QModelIndex) : MimeData :=
  [(mimeType, ProjectViewModel.mimeData.loop indexes [] [])]

namespace Qt

/-- Value of `Qt::IgnoreAction`. -/
def IgnoreAction : Nat := 0x0

/-- Value of `Qt::CopyAction`. -/
def CopyAction : Nat := 0x1

/-- Value of `Qt::MoveAction`. -/
def MoveAction : Nat := 0x2

end Qt

/-- The row-move notifications of the toolkit, in the order the model requests them. -/
inductive Signal where
  | beginMoveRows (sourceParent : QModelIndex) (sourceFirst sourceLast : Int)
      (destinationParent : QModelIndex) (destinationChild : Int)
  | endMoveRows
deriving DecidableEq, Repr

/-- The type of the acceptance check `canDropMimeData(data, action, row, column, parent)`, a
virtual function of the toolkit that `dropMimeData` calls: `dropMimeData` takes the check as
an argument, and `QAbstractItemModel.canDropMimeData` is the one the model inherits. -/
abbrev CanDrop := MimeData → Nat → Int → Int → QModelIndex → Bool

/-- `ProjectViewModel::mimeTypes`. -/
def ProjectViewModel.mimeTypes : List String := [mimeType]

/-- The acceptance check the model inherits, `QAbstractItemModel::canDropMimeData`, which the
sources do not override:
`if (!(action & supportedDropActions())) return false;
 for (type in mimeTypes()) if (data->hasFormat(type)) return true;
 return false;`.
The value of `supportedDropActions()`, declared outside these sources, is a parameter. -/
def QAbstractItemModel.canDropMimeData (supportedDropActions : Nat) : CanDrop :=
  fun data action _ _ _ =>
    if action &&& supportedDropActions = 0 then false
    else ProjectViewModel.mimeTypes.any (fun type => data.formats.contains type)

/-- The loop `while (!stream.atEnd())` of `dropMimeData` over the entries still to read, with
the current memory and the notifications emitted so far. -/
def ProjectViewModel.dropMimeData.loop (m : ProjectViewModel) (drop : QModelIndex)
    (drop_location : Nat) : Payload → Heap → List Signal → Option (Heap × List Signal)
  | [], h, emitted => some (h, emitted)
  | (r, item) :: rest, h, emitted =>
    match item, h.deref item with
    | some a, some it =>
      let parent_item := it.parent_
      if item ≠ some drop_location ∧ parent_item ≠ some drop_location then
        let parent_index : Option QModelIndex :=
          match m.project_ with
          | none => none
          | some project =>
            if parent_item ≠ some project.root then
              (ProjectViewModel.indexOfChild h parent_item).map
                (fun i => createIndex i 0 parent_item)
            else some QModelIndex.invalid
        match parent_index, h[drop_location]? with
        | some parent_index, some target =>
          match h.set_parent a drop_location with
          | none => none
          | some h1 =>
            ProjectViewModel.dropMimeData.loop m drop drop_location rest h1
              (emitted ++ [Signal.beginMoveRows parent_index r r drop target.child_count,
                Signal.endMoveRows])
        | _, _ => none
      else ProjectViewModel.dropMimeData.loop m drop drop_location rest h emitted
    | _, _ => none

/-- `ProjectViewModel::dropMimeData`: the returned flag, the memory after the call and the
row-move notifications emitted. -/
def ProjectViewModel.dropMimeData (m : ProjectViewModel) (canDropMimeData : CanDrop) (h : Heap)
    (data : MimeData) (action : Nat) (row column : Int) (drop : QModelIndex) :
    Option (Bool × Heap × List Signal) :=
  if !canDropMimeData data action row column drop then some (false, h, [])
  else if action = Qt.IgnoreAction then some (true, h, [])
  else if data.formats.contains mimeType then
    let model_data := data.data mimeType
    let drop_location : Option (Option Nat) :=
      if drop.isValid then
        match drop.internalPointer, h.deref drop.internalPointer with
        | some a, some target =>
          if target.type ≠ ItemType.kFolder then some none else some (some a)
        | _, _ => none
      else m.project_.map (fun project => some project.root)
    match drop_location with
    | none => none
    | some none => some (false, h, [])
    | some (some drop_location) =>
      match ProjectViewModel.dropMimeData.loop m drop drop_location model_data h [] with
      | none => none
      | some (h1, emitted) => some (true, h1, emitted)
  else some (false, h, [])

/-- Whether following parent references from `a` reaches `root` within `fuel` steps. -/
def reachesRoot (h : Heap) (root : Nat) : Nat → Nat → Bool
  | 0, a => a == root
  | fuel + 1, a =>
    a == root ||
      match h[a]? with
      | none => false
      | some it =>
        match it.parent_ with
        | none => false
        | some q => reachesRoot h root fuel q

/-- Whether `b` is met by following parent references from `a` for at least one and at most
`fuel` steps. -/
def hasAncestor (h : Heap) (b : Nat) : Nat → Nat → Bool
  | 0, _ => false
  | fuel + 1, a =>
    match h[a]? with
    | none => false
    | some it =>
      match it.parent_ with
      | none => false
      | some q => q == b || hasAncestor h b fuel q

/-- Whether the parent of the object at `a` lists `a` among its children; a parentless object
must be the root. -/
def parentListsChild (h : Heap) (root a : Nat) (it : Item) : Bool :=
  match it.parent_ with
  | none => a == root
  | some q =>
    match h[q]? with
    | none => false
    | some par => par.children_.contains a

/-- Whether every child of the object at `a` refers back to `a` as its parent. -/
def childrenReferBack (h : Heap) (a : Nat) (it : Item) : Bool :=
  it.children_.all fun c =>
    match h[c]? with
    | none => false
    | some ch => ch.parent_ == some a

/-- A well-formed item tree rooted at `root`: the root is parentless; the parent chain of
every object reaches the root (so no object is its own ancestor); children and parent
references agree; no object is listed twice among the children of its parent. -/
def WellFormed (h : Heap) (root : Nat) : Prop :=
  (h[root]?).map Item.parent_ = some none ∧
  ∀ a (ha : a < h.length),
    reachesRoot h root h.length a = true ∧
    parentListsChild h root a h[a] = true ∧
    childrenReferBack h a h[a] = true ∧
    h[a].children_.Nodup

instance (h : Heap) (root : Nat) : Decidable (WellFormed h root) := by
  unfold WellFormed
  infer_instance

/-- A sample tree: root 0 with children folder 1 and footage 3; folder 1 holds folder 2;
folder 2 holds footage 4. -/
def sampleHeap : Heap :=
  [ { type := ItemType.kFolder, parent_ := none, children_ := [1, 3] },
    { type := ItemType.kFolder, parent_ := some 0, children_ := [2] },
    { type := ItemType.kFolder, parent_ := some 1, children_ := [4] },
    { type := ItemType.kFootage, parent_ := some 0, children_ := [] },
    { type := ItemType.kFootage, parent_ := some 2, children_ := [] } ]

/-- The model attached to the project whose root is object 0. -/
def sampleModel : ProjectViewModel := ProjectViewModel.new.set_project (some ⟨0⟩)

/-- The locator of the item at address `a`: the invalid locator when `a` is the root, which
is never addressable, and `(indexOfChild(a), 0, a)` otherwise. -/
def locatorOf (h : Heap) (root : Nat) (a : Nat) : Option QModelIndex :=
  if a = root then some QModelIndex.invalid
  else (ProjectViewModel.indexOfChild h (some a)).map (fun i => createIndex i 0 (some a))

/-- The entries the drag loop still appends when it meets `indexes` with `dragged` already
recorded: a proof device, equal to what the loop does (`mimeData_loop_eq`). -/
def firstSeen (dragged : List ItemPtr) : List QModelIndex → Payload
  | [] => []
  | ix :: rest =>
    if ix.isValid && !dragged.contains ix.internalPointer then
      (ix.row, ix.internalPointer) :: firstSeen (dragged ++ [ix.internalPointer]) rest
    else firstSeen dragged rest

/-- Whether `ix` is a valid locator of the item referenced by `p`. -/
def QModelIndex.selects (p : ItemPtr) (ix : QModelIndex) : Bool :=
  ix.isValid && ix.internalPointer == p

/-- A selection of 3 columns × 2 rows: row 0 is item 1, row 1 is item 3. -/
def sampleSelection : List QModelIndex :=
  [createIndex 0 0 (some 1), createIndex 0 1 (some 1), createIndex 0 2 (some 1),
   createIndex 1 0 (some 3), createIndex 1 1 (some 3), createIndex 1 2 (some 3)]

/-- An acceptance check that accepts every drop. -/
def acceptAll : CanDrop := fun _ _ _ _ _ => true

/-! ### Lemmas on the layout functions -/

theorem wrapInt_eq {x : Int} (h : InInt x) : wrapInt x = x := by
  unfold InInt INT_MIN INT_MAX at h
  unfold wrapInt
  omega

theorem TrackAt_natCast_of_lt (l : TrackList) (j : Nat) (h : j < l.heights.length) :
    l.TrackAt (j : Int) = some (l.heights.get ⟨j, h⟩) := by
  simp [TrackList.TrackAt, List.getElem?_eq_getElem h]

theorem GetTrackHeight_natCast (v : TimelineView) (j : Nat) :
    v.GetTrackHeight (j : Int) = some (v.trackHeight j) := by
  unfold TimelineView.trackHeight
  unfold TimelineView.GetTrackHeight
  cases hl : v.connected_track_list_ with
  | none => simp
  | some l =>
    by_cases hj : (j : Int) ≥ l.TrackCount
    · simp [hj]
    · have hlt : j < l.heights.length := by
        simp only [TrackList.TrackCount] at hj
        omega
      simp [hj, TrackAt_natCast_of_lt l j hlt]

theorem trackHeight_pos (v : TimelineView) (hp : v.HeightsPositive) (j : Nat) :
    0 < v.trackHeight j := by
  have hs := GetTrackHeight_natCast v j
  unfold TimelineView.GetTrackHeight at hs
  cases hl : v.connected_track_list_ with
  | none =>
    rw [hl] at hs
    simp only [Option.some.injEq] at hs
    rw [← hs]; exact hp.1
  | some l =>
    rw [hl] at hs
    by_cases hj : (j : Int) ≥ l.TrackCount
    · simp only [hj, if_true, Option.some.injEq] at hs
      rw [← hs]; exact hp.1
    · have hlt : j < l.heights.length := by
        simp only [TrackList.TrackCount] at hj
        omega
      simp only [hj, if_false, TrackAt_natCast_of_lt l j hlt, Option.some.injEq] at hs
      rw [← hs]
      exact hp.2 l hl _ (List.get_mem _ _ _)

theorem cum_succ (v : TimelineView) (n : Nat) :
    v.cum (n + 1) = v.cum n + v.trackHeight n := by
  simp [TimelineView.cum, Finset.sum_range_succ]

theorem cum_zero (v : TimelineView) : v.cum 0 = 0 := by
  simp [TimelineView.cum]

theorem cum_strictMono (v : TimelineView) (hp : v.HeightsPositive) {a b : Nat} (h : a < b) :
    v.cum a < v.cum b := by
  induction b with
  | zero => omega
  | succ n ih =>
    have hpos := trackHeight_pos v hp n
    rw [cum_succ]
    rcases Nat.lt_succ_iff_lt_or_eq.mp h with h1 | h1
    · have := ih h1
      omega
    · subst h1
      omega

theorem cum_mono (v : TimelineView) (hp : v.HeightsPositive) {a b : Nat} (h : a ≤ b) :
    v.cum a ≤ v.cum b := by
  rcases Nat.lt_or_eq_of_le h with h1 | h1
  · exact le_of_lt (cum_strictMono v hp h1)
  · subst h1; exact le_refl _

/-- With positive heights the cumulative height of `n` tracks is at least `n`. -/
theorem cum_ge_index (v : TimelineView) (hp : v.HeightsPositive) (n : Nat) :
    (n : Int) ≤ v.cum n := by
  induction n with
  | zero => simp [cum_zero]
  | succ k ih =>
    have hpos := trackHeight_pos v hp k
    rw [cum_succ]
    push_cast
    omega

/-- With positive heights, a cumulative height that fits in an `int` bounds the track count
and every earlier cumulative height. -/
theorem fits_of_positive (v : TimelineView) (hp : v.HeightsPositive) (n : Nat)
    (h : v.cum n ≤ INT_MAX) :
    (n : Int) ≤ INT_MAX ∧ ∀ k, k ≤ n → InInt (v.cum k) := by
  refine ⟨le_trans (cum_ge_index v hp n) h, ?_⟩
  intro k hk
  have h0 := cum_ge_index v hp k
  have h1 := cum_mono v hp hk
  unfold InInt INT_MIN
  unfold INT_MAX at h
  unfold INT_MAX
  omega

theorem GetTrackY_loop_eq (v : TimelineView) (n : Nat) (hn : (n : Int) ≤ INT_MAX)
    (hfit : ∀ k, k ≤ n → InInt (v.cum k)) :
    ∀ (k i : Nat) (fuel : Nat), i + k = n → k < fuel →
      TimelineView.GetTrackY.loop v (n : Int) fuel (i : Int) (v.cum i) = some (v.cum n) := by
  intro k
  induction k with
  | zero =>
    intro i fuel hik hf
    have hi : i = n := by omega
    subst hi
    obtain ⟨f, rfl⟩ : ∃ f, fuel = f + 1 := ⟨fuel - 1, by omega⟩
    simp [TimelineView.GetTrackY.loop]
  | succ k ih =>
    intro i fuel hik hf
    obtain ⟨f, rfl⟩ : ∃ f, fuel = f + 1 := ⟨fuel - 1, by omega⟩
    have hlt : (i : Int) < (n : Int) := by omega
    have hstep := ih (i + 1) f (by omega) (by omega)
    have hw1 : wrapInt ((i : Int) + 1) = ((i + 1 : Nat) : Int) := by
      have : InInt ((i : Int) + 1) := by
        unfold InInt INT_MIN
        unfold INT_MAX at hn
        unfold INT_MAX
        omega
      rw [wrapInt_eq this]
      push_cast
      rfl
    have hw2 : wrapInt (v.cum i + v.trackHeight i) = v.cum (i + 1) := by
      rw [← cum_succ]
      exact wrapInt_eq (hfit (i + 1) (by omega))
    simp only [TimelineView.GetTrackY.loop, hlt, if_true, GetTrackHeight_natCast, hw1, hw2]
    exact hstep

theorem GetTrackY_loop_from_zero (v : TimelineView) (n : Nat) (hn : (n : Int) ≤ INT_MAX)
    (hfit : ∀ k, k ≤ n → InInt (v.cum k)) :
    TimelineView.GetTrackY.loop v (n : Int) (n + 1) 0 0 = some (v.cum n) := by
  have h := GetTrackY_loop_eq v n hn hfit n 0 (n + 1) (by omega) (by omega)
  simpa [cum_zero] using h

theorem GetTrackY_top (v : TimelineView) (hAlign : v.alignedBottom = false) (i : Nat)
    (hi : (i : Int) ≤ INT_MAX) (hfit : ∀ k, k ≤ i → InInt (v.cum k)) :
    v.GetTrackY (i : Int) = some (v.cum i) := by
  simp only [TimelineView.GetTrackY, hAlign]
  simp only [Bool.false_eq_true, if_false, Int.toNat_ofNat,
    GetTrackY_loop_from_zero v i hi hfit]

theorem GetTrackY_bottom (v : TimelineView) (hAlign : v.alignedBottom = true) (i : Nat)
    (hi : ((i + 1 : Nat) : Int) ≤ INT_MAX) (hfit : ∀ k, k ≤ i + 1 → InInt (v.cum k))
    (hneg : InInt (-(v.cum (i + 1)))) :
    v.GetTrackY (i : Int) = some (-(v.cum (i + 1))) := by
  have hw : wrapInt ((i : Int) + 1) = ((i + 1 : Nat) : Int) := by
    have : InInt ((i : Int) + 1) := by
      unfold InInt INT_MIN
      unfold INT_MAX at hi
      unfold INT_MAX
      push_cast at hi
      omega
    rw [wrapInt_eq this]
    push_cast
    rfl
  simp only [TimelineView.GetTrackY, hAlign, if_true, hw, Int.toNat_ofNat,
    GetTrackY_loop_from_zero v (i + 1) hi hfit, wrapInt_eq hneg]

theorem SceneToTrack_loop_eq (v : TimelineView) (y : ℚ) (i : Nat)
    (hi : (i : Int) ≤ INT_MAX) (hfit : ∀ k, k ≤ i + 1 → InInt (v.cum k))
    (hbelow : ∀ j, j < i → y > ((v.cum (j + 1) : Int) : ℚ))
    (hstop : ¬ y > ((v.cum (i + 1) : Int) : ℚ)) :
    ∀ (k t fuel : Nat), t + k = i → k < fuel →
      TimelineView.SceneToTrack.loop v y fuel ((t : Int) - 1) (v.cum t) = some (i : Int) := by
  have hw1 : ∀ t : Nat, t ≤ i → wrapInt ((t : Int) - 1 + 1) = (t : Int) := by
    intro t ht
    have : InInt ((t : Int) - 1 + 1) := by
      unfold InInt INT_MIN
      unfold INT_MAX at hi
      unfold INT_MAX
      omega
    rw [wrapInt_eq this]
    ring
  have hw2 : ∀ t : Nat, t ≤ i → wrapInt (v.cum t + v.trackHeight t) = v.cum (t + 1) := by
    intro t ht
    rw [← cum_succ]
    exact wrapInt_eq (hfit (t + 1) (by omega))
  intro k
  induction k with
  | zero =>
    intro t fuel htk hf
    have ht : t = i := by omega
    subst ht
    obtain ⟨f, rfl⟩ : ∃ f, fuel = f + 1 := ⟨fuel - 1, by omega⟩
    simp only [TimelineView.SceneToTrack.loop, hw1 t (le_refl _), GetTrackHeight_natCast,
      hw2 t (le_refl _)]
    rw [if_neg hstop]
  | succ k ih =>
    intro t fuel htk hf
    obtain ⟨f, rfl⟩ : ∃ f, fuel = f + 1 := ⟨fuel - 1, by omega⟩
    have hgt := hbelow t (by omega)
    have hstep := ih (t + 1) f (by omega) (by omega)
    simp only [TimelineView.SceneToTrack.loop, hw1 t (by omega), GetTrackHeight_natCast,
      hw2 t (by omega)]
    rw [if_pos hgt]
    have hc : (t : Int) = ((t + 1 : Nat) : Int) - 1 := by push_cast; ring
    rw [hc]
    exact hstep

/-- The first track whose cumulative height reaches `y`: the result of the scan started
from track 0, as long as the cumulative heights met on the way fit in an `int`. -/
theorem SceneToTrack_loop_from_start (v : TimelineView) (y : ℚ) (i : Nat)
    (hi : (i : Int) ≤ INT_MAX) (hfit : ∀ k, k ≤ i + 1 → InInt (v.cum k))
    (hbelow : ∀ j, j < i → y > ((v.cum (j + 1) : Int) : ℚ))
    (hstop : ¬ y > ((v.cum (i + 1) : Int) : ℚ)) (fuel : Nat) (hf : i < fuel) :
    TimelineView.SceneToTrack.loop v y fuel (-1) 0 = some (i : Int) := by
  have h := SceneToTrack_loop_eq v y i hi hfit hbelow hstop i 0 fuel (by omega) hf
  simpa [cum_zero] using h

theorem alignedBottom_new_top (d : Int) (l : Option TrackList) :
    ((TimelineView.new Qt.AlignTop d).ConnectTrackList l).alignedBottom = false := by
  show ((Qt.AlignLeft ||| Qt.AlignTop) &&& Qt.AlignBottom != 0) = false
  decide

theorem alignedBottom_new_bottom (d : Int) (l : Option TrackList) :
    ((TimelineView.new Qt.AlignBottom d).ConnectTrackList l).alignedBottom = true := by
  show ((Qt.AlignLeft ||| Qt.AlignBottom) &&& Qt.AlignBottom != 0) = true
  decide

theorem cum_eq_take_sum (d : Int) (align : Nat) (l : TrackList) (n : Nat)
    (hn : n ≤ l.heights.length) :
    (TimelineView.mk align (some l) d).cum n = (l.heights.take n).sum := by
  induction n with
  | zero => simp [cum_zero]
  | succ k ih =>
    have hk : k < l.heights.length := by omega
    have hh : (TimelineView.mk align (some l) d).trackHeight k = l.heights.get ⟨k, hk⟩ := by
      have hnot : ¬ ((k : Int) ≥ l.TrackCount) := by
        simp only [TrackList.TrackCount]; omega
      simp [TimelineView.trackHeight, TimelineView.GetTrackHeight, hnot,
        TrackAt_natCast_of_lt l k hk]
    rw [cum_succ, ih (by omega), hh, List.sum_take_succ _ _ hk]
    rfl

theorem cum_length_eq_sum (d : Int) (align : Nat) (l : TrackList) :
    (TimelineView.mk align (some l) d).cum l.heights.length = l.heights.sum := by
  rw [cum_eq_take_sum d align l _ (le_refl _), List.take_length]

/-- On a view connected to the list `l`, the cumulative height of all its tracks is the sum of
the stored heights. -/
theorem cum_connected_eq_sum (v : TimelineView) (l : TrackList)
    (hl : v.connected_track_list_ = some l) : v.cum l.heights.length = l.heights.sum := by
  obtain ⟨align, conn, d⟩ := v
  simp only at hl
  subst hl
  exact cum_length_eq_sum d align l

/-- On a bottom-aligned lane connected to the tracks `h0 :: hs`, the top edge of track 0 is
`-h0` and the top edge of the last track is the negated sum of all heights, as long as the
partial sums of the heights and the two negations fit in an `int`. -/
theorem GetTrackY_bottom_list (d h0 : Int) (hs : List Int)
    (hlen : ((hs.length + 1 : Nat) : Int) ≤ INT_MAX)
    (hfit : ∀ k, k ≤ hs.length + 1 → InInt (((h0 :: hs).take k).sum))
    (hneg0 : InInt (-h0)) (hneg : InInt (-((h0 :: hs).sum))) :
    ((TimelineView.new Qt.AlignBottom d).ConnectTrackList (some ⟨h0 :: hs⟩)).GetTrackY 0
        = some (-h0) ∧
    ((TimelineView.new Qt.AlignBottom d).ConnectTrackList (some ⟨h0 :: hs⟩)).GetTrackY
        (hs.length : Int) = some (-((h0 :: hs).sum)) := by
  have hcum : ∀ k, k ≤ hs.length + 1 →
      ((TimelineView.new Qt.AlignBottom d).ConnectTrackList (some ⟨h0 :: hs⟩)).cum k
        = ((h0 :: hs).take k).sum := by
    intro k hk
    exact cum_eq_take_sum d (Qt.AlignLeft ||| Qt.AlignBottom) ⟨h0 :: hs⟩ k (by simpa using hk)
  have hc1 := hcum 1 (by omega)
  simp only [List.take_succ_cons, List.take_zero, List.sum_cons, List.sum_nil, add_zero] at hc1
  have hcN := hcum (hs.length + 1) (le_refl _)
  have htake : (h0 :: hs).take (hs.length + 1) = h0 :: hs := by
    simp
  rw [htake] at hcN
  constructor
  · have h := GetTrackY_bottom _ (alignedBottom_new_bottom d (some ⟨h0 :: hs⟩)) 0
      (by unfold INT_MAX; decide)
      (by
        intro k hk
        rw [hcum k (by omega)]
        exact hfit k (by omega))
      (by rw [hc1]; exact hneg0)
    rw [hc1] at h
    simpa using h
  · have h := GetTrackY_bottom _ (alignedBottom_new_bottom d (some ⟨h0 :: hs⟩)) hs.length
      hlen
      (by
        intro k hk
        rw [hcum k hk]
        exact hfit k hk)
      (by rw [hcN]; exact hneg)
    rw [hcN] at h
    exact h

/-- On a top-aligned lane with positive heights the top edge of track `i + 1` is mapped to
track `i`, as long as the cumulative height of tracks `0 .. i` fits in an `int`: the scan
stops as soon as the cumulative height reaches `y`. -/
theorem SceneToTrack_top_edge_top_aligned (v : TimelineView) (hAlign : v.alignedBottom = false)
    (hp : v.HeightsPositive) (i : Nat) (hfit : v.cum (i + 1) ≤ INT_MAX)
    (fuel : Nat) (hf : i < fuel) :
    ∃ y : Int, v.GetTrackY ((i + 1 : Nat) : Int) = some y ∧
      v.SceneToTrack fuel (y : ℚ) = some (i : Int) := by
  obtain ⟨hidx, hall⟩ := fits_of_positive v hp (i + 1) hfit
  have hi : (i : Int) ≤ INT_MAX := by
    push_cast at hidx
    omega
  refine ⟨v.cum (i + 1), GetTrackY_top v hAlign (i + 1) hidx hall, ?_⟩
  simp only [TimelineView.SceneToTrack, hAlign, Bool.false_eq_true, if_false]
  apply SceneToTrack_loop_from_start v _ i hi hall _ _ fuel hf
  · intro j hj
    have := cum_strictMono v hp (show j + 1 < i + 1 by omega)
    exact_mod_cast this
  · simp

/-- On a bottom-aligned lane with positive heights the scan inverts `GetTrackY` at every top
edge, as long as the cumulative height of tracks `0 .. i` fits in an `int`. -/
theorem SceneToTrack_top_edge_bottom_aligned (v : TimelineView) (hAlign : v.alignedBottom = true)
    (hp : v.HeightsPositive) (i : Nat) (hfit : v.cum (i + 1) ≤ INT_MAX)
    (fuel : Nat) (hf : i < fuel) :
    ∃ y : Int, v.GetTrackY (i : Int) = some y ∧
      v.SceneToTrack fuel (y : ℚ) = some (i : Int) := by
  obtain ⟨hidx, hall⟩ := fits_of_positive v hp (i + 1) hfit
  have hi : (i : Int) ≤ INT_MAX := by
    push_cast at hidx
    omega
  have hneg : InInt (-(v.cum (i + 1))) := by
    have h0 := cum_ge_index v hp (i + 1)
    unfold InInt INT_MIN INT_MAX
    unfold INT_MAX at hfit
    omega
  refine ⟨-(v.cum (i + 1)), GetTrackY_bottom v hAlign i hidx hall hneg, ?_⟩
  simp only [TimelineView.SceneToTrack, hAlign, if_true]
  apply SceneToTrack_loop_from_start v _ i hi hall _ _ fuel hf
  · intro j hj
    have := cum_strictMono v hp (show j + 1 < i + 1 by omega)
    push_cast
    simp only [neg_neg]
    exact_mod_cast this
  · push_cast
    simp

/-- What `GetTrackHeight` returns on the indices its guard covers: the default height with no
list connected or at an index `≥ TrackCount()`, the height stored in the list at an index in
range. -/
theorem GetTrackHeight_guarded (v : TimelineView) (track_index : Int) :
    (v.connected_track_list_ = none → v.GetTrackHeight track_index = some v.defaultTrackHeight) ∧
    (∀ l, v.connected_track_list_ = some l →
      (track_index ≥ l.TrackCount → v.GetTrackHeight track_index = some v.defaultTrackHeight) ∧
      (track_index < l.TrackCount → v.GetTrackHeight track_index = l.TrackAt track_index) ∧
      (0 ≤ track_index → track_index < l.TrackCount →
        ∃ h, l.heights[track_index.toNat]? = some h ∧ v.GetTrackHeight track_index = some h)) := by
  refine ⟨?_, ?_⟩
  · intro h
    simp [TimelineView.GetTrackHeight, h]
  · intro l hl
    refine ⟨?_, ?_, ?_⟩
    · intro hge
      simp [TimelineView.GetTrackHeight, hl, hge]
    · intro hlt
      have : ¬ track_index ≥ l.TrackCount := by omega
      simp [TimelineView.GetTrackHeight, hl, this]
    · intro h0 hlt
      have hnot : ¬ track_index ≥ l.TrackCount := by omega
      have hlen : track_index.toNat < l.heights.length := by
        simp only [TrackList.TrackCount] at hlt
        omega
      refine ⟨l.heights.get ⟨_, hlen⟩, ?_, ?_⟩
      · simp [List.getElem?_eq_getElem hlen]
      · simp [TimelineView.GetTrackHeight, hl, hnot, TrackList.TrackAt, h0,
          List.getElem?_eq_getElem hlen]

theorem viewTop4060_positive : viewTop4060.HeightsPositive := by
  refine ⟨by decide, ?_⟩
  intro l hl h hh
  have : l = ⟨[40, 60]⟩ := by
    simp only [viewTop4060, TimelineView.ConnectTrackList, Option.some.injEq] at hl
    exact hl.symm
  subst this
  simp only [List.mem_cons, List.mem_singleton, List.not_mem_nil, or_false] at hh
  rcases hh with h1 | h1 <;> subst h1 <;> decide

theorem viewOverflow_positive : viewOverflow.HeightsPositive := by
  refine ⟨by decide, ?_⟩
  intro l hl h hh
  have : l = ⟨[2000000000, 2000000000]⟩ := by
    simp only [viewOverflow, TimelineView.ConnectTrackList, Option.some.injEq] at hl
    exact hl.symm
  subst this
  simp only [List.mem_cons, List.mem_singleton, List.not_mem_nil, or_false] at hh
  rcases hh with h1 | h1 <;> subst h1 <;> decide

/-- The heights the sample view with tracks [40, 60] and default 40 reports. -/
theorem viewTop4060_heights :
    viewTop4060.trackHeight 0 = 40 ∧ viewTop4060.trackHeight 1 = 60 ∧
    viewTop4060.trackHeight 2 = 40 := by
  decide

/-- The heights the sample bottom-aligned view with tracks [40, 40] reports. -/
theorem viewBottom4040_heights :
    viewBottom4040.trackHeight 0 = 40 ∧ viewBottom4040.trackHeight 1 = 40 := by
  decide

theorem wrapInt_le_max (x : Int) : wrapInt x ≤ INT_MAX := by
  unfold wrapInt INT_MAX
  omega

/-- A query point above every `int` is never reached by the `int` accumulator: the scan does
not return, whatever the number of iterations allowed. -/
theorem SceneToTrack_loop_above_max (v : TimelineView) (y : ℚ) (hy : ((INT_MAX : Int) : ℚ) < y) :
    ∀ (fuel : Nat) (track heights : Int),
      TimelineView.SceneToTrack.loop v y fuel track heights = none := by
  intro fuel
  induction fuel with
  | zero => intro track heights; rfl
  | succ n ih =>
    intro track heights
    simp only [TimelineView.SceneToTrack.loop]
    cases hh : v.GetTrackHeight (wrapInt (track + 1)) with
    | none => rfl
    | some hgt =>
      have hle : ((wrapInt (heights + hgt) : Int) : ℚ) ≤ ((INT_MAX : Int) : ℚ) := by
        exact_mod_cast wrapInt_le_max (heights + hgt)
      have hgt2 : y > ((wrapInt (heights + hgt) : Int) : ℚ) := lt_of_le_of_lt hle hy
      simp only [hgt2, if_true]
      exact ih _ _

/-! ### Claims on the timeline view -/

/-- C1, refuted as stated: on the top-aligned view with tracks [2000000000, 2000000000] and
default height 1000000000, all positive, the `int` sum of the first two heights wraps, so
`GetTrackY 2 = -294967296` and `GetTrackY 3 = 705032704`; `y = 0` lies strictly between them
and `SceneToTrack 0` is 0, never 2. -/
theorem SceneToTrack_wraps_past_int :
    viewOverflow.alignedBottom = false ∧ viewOverflow.HeightsPositive ∧
    viewOverflow.GetTrackY 2 = some (-294967296) ∧
    viewOverflow.GetTrackY (2 + 1) = some 705032704 ∧
    (((-294967296 : Int) : ℚ) < 0 ∧ (0 : ℚ) < ((705032704 : Int) : ℚ)) ∧
    viewOverflow.SceneToTrack 1 0 = some 0 ∧
    ∀ fuel, viewOverflow.SceneToTrack fuel 0 ≠ some 2 := by
  have h0 : ∀ fuel, viewOverflow.SceneToTrack (fuel + 1) 0 = some 0 := by
    intro fuel
    have hh : viewOverflow.GetTrackHeight (wrapInt (-1 + 1)) = some 2000000000 := by decide
    simp only [TimelineView.SceneToTrack, TimelineView.SceneToTrack.loop, hh]
    have hal : viewOverflow.alignedBottom = false := by decide
    have hw : wrapInt (0 + 2000000000) = 2000000000 := by decide
    simp only [hal, hw]
    norm_num
    decide
  refine ⟨by decide, viewOverflow_positive, by decide, by decide, ⟨by norm_num, by norm_num⟩,
    h0 0, ?_⟩
  intro fuel
  cases fuel with
  | zero => simp [TimelineView.SceneToTrack, TimelineView.SceneToTrack.loop]
  | succ n => rw [h0 n]; decide

/-- C1, amended: on a top-aligned view whose heights (connected tracks and default) are all
positive, for every `i ≥ 0` (including indices past the track count) for which the cumulative
height of tracks `0 .. i` fits in an `int`, every `y` strictly between the top edge of track
`i` and the top edge of track `i + 1` is mapped by `SceneToTrack` to `i`; the scan needs
`i + 1` iterations. -/
theorem SceneToTrack_between_edges (v : TimelineView) (hAlign : v.alignedBottom = false)
    (hp : v.HeightsPositive) (i : Nat)
    (hfit : ∑ j in Finset.range (i + 1), v.trackHeight j ≤ INT_MAX)
    (y : ℚ) (lo hi : Int)
    (hlo : v.GetTrackY (i : Int) = some lo) (hhi : v.GetTrackY ((i : Int) + 1) = some hi)
    (h1 : (lo : ℚ) < y) (h2 : y < (hi : ℚ)) (fuel : Nat) (hf : i < fuel) :
    v.SceneToTrack fuel y = some (i : Int) := by
  have hfit2 : v.cum (i + 1) ≤ INT_MAX := hfit
  obtain ⟨hidx, hall⟩ := fits_of_positive v hp (i + 1) hfit2
  have hi0 : (i : Int) ≤ INT_MAX := by
    push_cast at hidx
    omega
  have hlo2 := GetTrackY_top v hAlign i hi0 (fun k hk => hall k (by omega))
  have hhi2 := GetTrackY_top v hAlign (i + 1) hidx hall
  have hc : (((i + 1 : Nat) : Int)) = (i : Int) + 1 := by push_cast; rfl
  rw [hc] at hhi2
  rw [hlo2] at hlo
  rw [hhi2] at hhi
  simp only [Option.some.injEq] at hlo hhi
  subst hlo
  subst hhi
  simp only [TimelineView.SceneToTrack, hAlign, Bool.false_eq_true, if_false]
  apply SceneToTrack_loop_from_start v y i hi0 hall _ _ fuel hf
  · intro j hj
    have hm := cum_mono v hp (show j + 1 ≤ i by omega)
    have hq : ((v.cum (j + 1) : Int) : ℚ) ≤ ((v.cum i : Int) : ℚ) := by exact_mod_cast hm
    exact lt_of_le_of_lt hq h1
  · exact not_lt.mpr (le_of_lt h2)

/-- C1, witness: with heights [40, 60] (default 40), `SceneToTrack` maps 10 to 0, 50 and 99 to
1, and 101 to 2. -/
theorem SceneToTrack_between_edges_witness :
    viewTop4060.SceneToTrack 3 10 = some 0 ∧ viewTop4060.SceneToTrack 3 50 = some 1 ∧
    viewTop4060.SceneToTrack 3 99 = some 1 ∧ viewTop4060.SceneToTrack 3 101 = some 2 :=
  ⟨SceneToTrack_between_edges viewTop4060 (by decide) viewTop4060_positive 0
      (by simp [Finset.sum_range_succ, viewTop4060_heights, INT_MAX]) 10 0 40
      (by decide) (by decide) (by norm_num) (by norm_num) 3 (by decide),
   SceneToTrack_between_edges viewTop4060 (by decide) viewTop4060_positive 1
      (by simp [Finset.sum_range_succ, viewTop4060_heights, INT_MAX]) 50 40 100
      (by decide) (by decide) (by norm_num) (by norm_num) 3 (by decide),
   SceneToTrack_between_edges viewTop4060 (by decide) viewTop4060_positive 1
      (by simp [Finset.sum_range_succ, viewTop4060_heights, INT_MAX]) 99 40 100
      (by decide) (by decide) (by norm_num) (by norm_num) 3 (by decide),
   SceneToTrack_between_edges viewTop4060 (by decide) viewTop4060_positive 2
      (by simp [Finset.sum_range_succ, viewTop4060_heights, INT_MAX]) 101 100 140
      (by decide) (by decide) (by norm_num) (by norm_num) 3 (by decide)⟩

/-- C2, refuted as stated: on the top-aligned view with tracks [2000000000, 2000000000] the
sum of the heights of tracks 0 and 1 is 4000000000, and `GetTrackY 2`, computed in `int`, is
-294967296. -/
theorem GetTrackY_overflow :
    viewOverflow.alignedBottom = false ∧
    ∑ j in Finset.range 2, viewOverflow.trackHeight j = 4000000000 ∧
    viewOverflow.GetTrackY 2 = some (-294967296) ∧
    viewOverflow.GetTrackY 2 ≠ some (∑ j in Finset.range 2, viewOverflow.trackHeight j) := by
  have hs : ∑ j in Finset.range 2, viewOverflow.trackHeight j = 4000000000 := by
    have h0 : viewOverflow.trackHeight 0 = 2000000000 := by decide
    have h1 : viewOverflow.trackHeight 1 = 2000000000 := by decide
    simp [Finset.sum_range_succ, h0, h1]
  refine ⟨by decide, hs, by decide, ?_⟩
  rw [hs]
  decide

/-- C2, amended: `GetTrackHeight` is defined at every index `j ≥ 0`, and for every `i ≥ 0`
for which the index arithmetic, the partial sums of the heights and, on a bottom-aligned lane,
the final negation stay in the range of `int`, `GetTrackY i` is the sum of the heights of
tracks `0 .. i-1` on a top-aligned lane and the negated sum of the heights of tracks `0 .. i`
on a bottom-aligned lane; so `GetTrackY 0 = 0` on every top-aligned lane and, on a
bottom-aligned lane whose list has `i + 1` tracks, `GetTrackY i` is the negated sum of all
stored heights. -/
theorem GetTrackY_eq_reference (v : TimelineView) (i : Nat)
    (hidx : (((if v.alignedBottom then i + 1 else i : Nat)) : Int) ≤ INT_MAX)
    (hfit : ∀ k, k ≤ (if v.alignedBottom then i + 1 else i) →
      InInt (∑ j in Finset.range k, v.trackHeight j))
    (hneg : v.alignedBottom = true → InInt (-(∑ j in Finset.range (i + 1), v.trackHeight j))) :
    (∀ j : Nat, v.GetTrackHeight (j : Int) = some (v.trackHeight j)) ∧
    v.GetTrackY (i : Int) =
      some (if v.alignedBottom then -(∑ j in Finset.range (i + 1), v.trackHeight j)
            else ∑ j in Finset.range i, v.trackHeight j) ∧
    (∀ (d : Int) (l : Option TrackList),
      ((TimelineView.new Qt.AlignTop d).ConnectTrackList l).GetTrackY 0 = some 0) ∧
    (∀ l : TrackList, v.connected_track_list_ = some l → v.alignedBottom = true →
      i + 1 = l.heights.length → v.GetTrackY (i : Int) = some (-(l.heights.sum))) := by
  have hmain : v.GetTrackY (i : Int) =
      some (if v.alignedBottom then -(∑ j in Finset.range (i + 1), v.trackHeight j)
            else ∑ j in Finset.range i, v.trackHeight j) := by
    cases hb : v.alignedBottom with
    | false =>
      simp only [hb, Bool.false_eq_true, if_false] at hidx hfit
      simpa using GetTrackY_top v hb i hidx hfit
    | true =>
      simp only [hb, if_true] at hidx hfit
      simpa using GetTrackY_bottom v hb i hidx hfit (hneg hb)
  refine ⟨GetTrackHeight_natCast v, hmain, ?_, ?_⟩
  · intro d l
    have h := GetTrackY_top _ (alignedBottom_new_top d l) 0 (by unfold INT_MAX; decide)
      (by
        intro k hk
        have hk0 : k = 0 := by omega
        subst hk0
        rw [cum_zero]
        decide)
    simpa [cum_zero] using h
  · intro l hl hb hlen
    rw [hmain]
    simp only [hb, if_true]
    have := cum_connected_eq_sum v l hl
    rw [← hlen] at this
    rw [← this]
    rfl

/-- C2, witness: on the view with tracks [40, 60] (top-aligned) `GetTrackY 2 = 40 + 60`, and
on the bottom-aligned view with tracks [40, 40] `GetTrackY 1 = -(40 + 40)`. -/
theorem GetTrackY_eq_reference_witness :
    viewTop4060.GetTrackY 2 = some 100 ∧ viewBottom4040.GetTrackY 1 = some (-80) := by
  have hT : viewTop4060.alignedBottom = false := by decide
  have hB : viewBottom4040.alignedBottom = true := by decide
  have h1 := (GetTrackY_eq_reference viewTop4060 2
    (by rw [hT]; decide)
    (by
      intro k hk
      rw [hT] at hk
      simp only [Bool.false_eq_true, if_false] at hk
      interval_cases k <;>
        simp [Finset.sum_range_succ, viewTop4060_heights, InInt, INT_MIN, INT_MAX])
    (by rw [hT]; intro h; cases h)).2.1
  have h2 := (GetTrackY_eq_reference viewBottom4040 1
    (by rw [hB]; decide)
    (by
      intro k hk
      rw [hB] at hk
      simp only [if_true] at hk
      interval_cases k <;>
        simp [Finset.sum_range_succ, viewBottom4040_heights, InInt, INT_MIN, INT_MAX])
    (by
      intro _
      simp [Finset.sum_range_succ, viewBottom4040_heights, InInt, INT_MIN, INT_MAX])).2.1
  constructor
  · rw [hT] at h1
    simpa [Finset.sum_range_succ, viewTop4060_heights] using h1
  · rw [hB] at h2
    simpa [Finset.sum_range_succ, viewBottom4040_heights] using h2

/-- C3, refuted as stated: with two tracks of height 40 on a bottom-aligned lane `GetTrackY 0`
is -40, not -80, and `GetTrackY 1` is -80, not -40. -/
theorem GetTrackY_bottom_4040_not_as_claimed :
    ¬ (viewBottom4040.GetTrackY 0 = some (-80) ∧ viewBottom4040.GetTrackY 1 = some (-40)) := by
  decide

/-- C3, amended: on a bottom-aligned lane connected to the tracks `h0 :: hs`, whose count,
partial sums of heights and negated heights fit in an `int`, `GetTrackY 0` is the negated
height of track 0 alone and `GetTrackY` of the last track is the negated sum of all heights;
with two tracks of height 40, `GetTrackY 0 = -40` and `GetTrackY 1 = -80`. -/
theorem GetTrackY_bottom_track_zero (d h0 : Int) (hs : List Int)
    (hlen : ((hs.length + 1 : Nat) : Int) ≤ INT_MAX)
    (hfit : ∀ k, k ≤ hs.length + 1 → InInt (((h0 :: hs).take k).sum))
    (hneg0 : InInt (-h0)) (hneg : InInt (-((h0 :: hs).sum))) :
    ((TimelineView.new Qt.AlignBottom d).ConnectTrackList (some ⟨h0 :: hs⟩)).GetTrackY 0
        = some (-h0) ∧
    ((TimelineView.new Qt.AlignBottom d).ConnectTrackList (some ⟨h0 :: hs⟩)).GetTrackY
        (hs.length : Int) = some (-((h0 :: hs).sum)) ∧
    viewBottom4040.GetTrackY 0 = some (-40) ∧ viewBottom4040.GetTrackY 1 = some (-80) :=
  ⟨(GetTrackY_bottom_list d h0 hs hlen hfit hneg0 hneg).1,
   (GetTrackY_bottom_list d h0 hs hlen hfit hneg0 hneg).2, by decide, by decide⟩

/-- C3, witness: two tracks of height 40 on a bottom-aligned lane with default height 40. -/
theorem GetTrackY_bottom_track_zero_witness :
    ((TimelineView.new Qt.AlignBottom 40).ConnectTrackList (some ⟨[40, 40]⟩)).GetTrackY 0
        = some (-40) ∧
    ((TimelineView.new Qt.AlignBottom 40).ConnectTrackList (some ⟨[40, 40]⟩)).GetTrackY 1
        = some (-80) :=
  ⟨(GetTrackY_bottom_track_zero 40 40 [40] (by decide) (by decide) (by decide) (by decide)).1,
   (GetTrackY_bottom_track_zero 40 40 [40] (by decide) (by decide) (by decide)
      (by decide)).2.1⟩

/-- C4, failing input: on the top-aligned view with heights [40, 60] the top edge of track 1
is `GetTrackY 1 = 40`, and `SceneToTrack 40` is 0, never 1, whatever the iteration bound. -/
theorem SceneToTrack_top_edge_4060 :
    viewTop4060.GetTrackY 1 = some 40 ∧ viewTop4060.SceneToTrack 1 40 = some 0 ∧
    ∀ fuel, viewTop4060.SceneToTrack fuel 40 ≠ some 1 := by
  have h0 : ∀ fuel, 0 < fuel → viewTop4060.SceneToTrack fuel 40 = some 0 := by
    intro fuel hf
    obtain ⟨y, hy, hs⟩ :=
      SceneToTrack_top_edge_top_aligned viewTop4060 (by decide) viewTop4060_positive 0
        (by
          show ∑ j in Finset.range (0 + 1), viewTop4060.trackHeight j ≤ INT_MAX
          simp [Finset.sum_range_succ, viewTop4060_heights, INT_MAX]) fuel hf
    have hy2 : viewTop4060.GetTrackY ((0 + 1 : Nat) : Int) = some 40 := by decide
    rw [hy2] at hy
    simp only [Option.some.injEq] at hy
    subst hy
    simpa using hs
  refine ⟨by decide, h0 1 (by decide), ?_⟩
  intro fuel
  cases fuel with
  | zero => simp [TimelineView.SceneToTrack, TimelineView.SceneToTrack.loop]
  | succ n => rw [h0 (n + 1) (by omega)]; decide

/-- C5, failing input: on a view connected to two tracks, `GetTrackHeight (-1)` passes the
guard and reads the list at index -1, an out-of-range read, instead of returning the default
height. -/
theorem GetTrackHeight_negative_index :
    viewTop4060.connected_track_list_ = some ⟨[40, 60]⟩ ∧
    viewTop4060.GetTrackHeight (-1) = (TrackList.mk [40, 60]).TrackAt (-1) ∧
    viewTop4060.GetTrackHeight (-1) = none ∧
    viewTop4060.GetTrackHeight (-1) ≠ some viewTop4060.defaultTrackHeight := by
  decide

/-! ### Lemmas on the project tree model -/

theorem mimeData_loop_eq (indexes : List QModelIndex) :
    ∀ (stream : Payload) (dragged : List ItemPtr),
      ProjectViewModel.mimeData.loop indexes stream dragged
        = stream ++ firstSeen dragged indexes := by
  induction indexes with
  | nil => intro stream dragged; simp [ProjectViewModel.mimeData.loop, firstSeen]
  | cons ix rest ih =>
    intro stream dragged
    by_cases hv : ix.isValid = true
    · by_cases hc : ix.internalPointer ∈ dragged
      · simp [ProjectViewModel.mimeData.loop, firstSeen, hv, hc, ih]
      · simp [ProjectViewModel.mimeData.loop, firstSeen, hv, hc, ih]
    · simp [ProjectViewModel.mimeData.loop, firstSeen, hv, ih]

theorem firstSeen_mem (indexes : List QModelIndex) :
    ∀ (dragged : List ItemPtr) (p : ItemPtr),
      p ∈ (firstSeen dragged indexes).map Prod.snd ↔
        p ∉ dragged ∧ ∃ ix ∈ indexes, ix.isValid = true ∧ ix.internalPointer = p := by
  induction indexes with
  | nil => intro dragged p; simp [firstSeen]
  | cons ix rest ih =>
    intro dragged p
    by_cases hv : ix.isValid = true
    · by_cases hc : ix.internalPointer ∈ dragged
      · have hcond : (ix.isValid && !dragged.contains ix.internalPointer) = false := by
          simp [hv, hc]
        simp only [firstSeen, hcond, Bool.false_eq_true, if_false, ih, List.mem_cons,
          exists_eq_or_imp]
        constructor
        · rintro ⟨hp, hex⟩
          exact ⟨hp, Or.inr hex⟩
        · rintro ⟨hp, hex⟩
          refine ⟨hp, ?_⟩
          rcases hex with ⟨_, heq⟩ | hex
          · exact absurd (heq ▸ hc) hp
          · exact hex
      · have hcond : (ix.isValid && !dragged.contains ix.internalPointer) = true := by
          simp [hv, hc]
        simp only [firstSeen, hcond, if_true, List.map_cons, List.mem_cons, ih,
          List.mem_append, List.mem_singleton, List.not_mem_nil, or_false, exists_eq_or_imp,
          not_or]
        constructor
        · rintro (heq | ⟨⟨hp, hne⟩, hex⟩)
          · subst heq
            exact ⟨hc, Or.inl ⟨hv, rfl⟩⟩
          · exact ⟨hp, Or.inr hex⟩
        · rintro ⟨hp, hex⟩
          by_cases heq : p = ix.internalPointer
          · exact Or.inl heq
          · right
            refine ⟨⟨hp, heq⟩, ?_⟩
            rcases hex with ⟨_, h2⟩ | hex
            · exact absurd h2.symm heq
            · exact hex
    · have hcond : (ix.isValid && !dragged.contains ix.internalPointer) = false := by
        simp [hv]
      simp only [firstSeen, hcond, Bool.false_eq_true, if_false, ih, List.mem_cons,
        exists_eq_or_imp]
      constructor
      · rintro ⟨hp, hex⟩
        exact ⟨hp, Or.inr hex⟩
      · rintro ⟨hp, hex⟩
        refine ⟨hp, ?_⟩
        rcases hex with ⟨h1, _⟩ | hex
        · exact absurd h1 hv
        · exact hex

theorem firstSeen_nodup (indexes : List QModelIndex) :
    ∀ dragged : List ItemPtr, ((firstSeen dragged indexes).map Prod.snd).Nodup := by
  induction indexes with
  | nil => intro dragged; simp [firstSeen]
  | cons ix rest ih =>
    intro dragged
    by_cases hcond : (ix.isValid && !dragged.contains ix.internalPointer) = true
    · simp only [firstSeen, hcond, if_true, List.map_cons, List.nodup_cons]
      refine ⟨?_, ih _⟩
      intro hmem
      have := (firstSeen_mem rest _ _).mp hmem
      exact this.1 (by simp)
    · simp only [firstSeen, hcond, Bool.false_eq_true, if_false]
      exact ih _

/-- An entry produced with `dragged` recorded past a locator `ix` that is not fresh does not
reference the item of `ix`. -/
theorem firstSeen_not_selects (ix : QModelIndex) (rest : List QModelIndex)
    (dragged : List ItemPtr)
    (hcond : ¬ (ix.isValid && !dragged.contains ix.internalPointer) = true)
    (e : Int × ItemPtr) (he : e ∈ firstSeen dragged rest) : ix.selects e.2 = false := by
  have hm : e.2 ∈ (firstSeen dragged rest).map Prod.snd := List.mem_map_of_mem _ he
  have hnot := ((firstSeen_mem rest dragged e.2).mp hm).1
  by_cases hv : ix.isValid = true
  · have hin : ix.internalPointer ∈ dragged := by
      by_contra hni
      exact hcond (by simp [hv, hni])
    have hne : ix.internalPointer ≠ e.2 := fun heq => hnot (heq ▸ hin)
    simp [QModelIndex.selects, hne]
  · simp [QModelIndex.selects, hv]

/-- An entry produced after a fresh locator `ix` was recorded does not reference the item of
`ix`. -/
theorem firstSeen_not_selects_fresh (ix : QModelIndex) (rest : List QModelIndex)
    (dragged : List ItemPtr) (e : Int × ItemPtr)
    (he : e ∈ firstSeen (dragged ++ [ix.internalPointer]) rest) : ix.selects e.2 = false := by
  have hm : e.2 ∈ (firstSeen (dragged ++ [ix.internalPointer]) rest).map Prod.snd :=
    List.mem_map_of_mem _ he
  have hnot := ((firstSeen_mem rest _ e.2).mp hm).1
  have hne : ix.internalPointer ≠ e.2 := fun heq => hnot (by simp [heq])
  simp [QModelIndex.selects, hne]

theorem firstSeen_row (indexes : List QModelIndex) :
    ∀ (dragged : List ItemPtr) (e : Int × ItemPtr), e ∈ firstSeen dragged indexes →
      (indexes.find? (QModelIndex.selects e.2)).map QModelIndex.row = some e.1 := by
  induction indexes with
  | nil => intro dragged e he; simp [firstSeen] at he
  | cons ix rest ih =>
    intro dragged e he
    by_cases hcond : (ix.isValid && !dragged.contains ix.internalPointer) = true
    · simp only [firstSeen, hcond, if_true, List.mem_cons] at he
      rcases he with heq | he
      · subst heq
        have hv : ix.isValid = true := by
          simp only [Bool.and_eq_true] at hcond
          exact hcond.1
        have hsel : ix.selects ix.internalPointer = true := by
          simp [QModelIndex.selects, hv]
        simp [List.find?_cons, hsel]
      · have hsel := firstSeen_not_selects_fresh ix rest dragged e he
        simp only [List.find?_cons, hsel]
        exact ih _ e he
    · simp only [firstSeen, hcond, Bool.false_eq_true, if_false] at he
      have hsel := firstSeen_not_selects ix rest dragged hcond e he
      simp only [List.find?_cons, hsel]
      exact ih _ e he

theorem firstSeen_order (indexes : List QModelIndex) :
    ∀ dragged : List ItemPtr,
      ((firstSeen dragged indexes).map
        (fun e => indexes.findIdx (QModelIndex.selects e.2))).Pairwise (· < ·) := by
  induction indexes with
  | nil => intro dragged; simp [firstSeen]
  | cons ix rest ih =>
    intro dragged
    have shift : ∀ (d : List ItemPtr),
        (∀ e ∈ firstSeen d rest, ix.selects e.2 = false) →
        (firstSeen d rest).map (fun e => (ix :: rest).findIdx (QModelIndex.selects e.2))
          = ((firstSeen d rest).map
              (fun e => rest.findIdx (QModelIndex.selects e.2))).map (· + 1) := by
      intro d hd
      rw [List.map_map]
      apply List.map_congr_left
      intro e he
      simp [List.findIdx_cons, hd e he]
    by_cases hcond : (ix.isValid && !dragged.contains ix.internalPointer) = true
    · have hv : ix.isValid = true := by
        simp only [Bool.and_eq_true] at hcond
        exact hcond.1
      have hsel : ix.selects ix.internalPointer = true := by
        simp [QModelIndex.selects, hv]
      simp only [firstSeen, hcond, if_true, List.map_cons, List.pairwise_cons]
      rw [shift _ (fun e he => firstSeen_not_selects_fresh ix rest dragged e he)]
      refine ⟨?_, ?_⟩
      · intro k hk
        simp only [List.mem_map] at hk
        obtain ⟨a, _, rfl⟩ := hk
        simp [List.findIdx_cons, hsel]
      · exact (ih _).map _ (fun a b hab => Nat.succ_lt_succ hab)
    · simp only [firstSeen, hcond, Bool.false_eq_true, if_false]
      rw [shift _ (fun e he => firstSeen_not_selects ix rest dragged hcond e he)]
      exact (ih _).map _ (fun a b hab => Nat.succ_lt_succ hab)

/-- The scan returns the position of the first occurrence of a listed item. -/
theorem indexOfChild_loop_mem (item : Nat) (cs : List Nat) :
    ∀ i : Int, item ∈ cs →
      ∃ k : Nat, cs[k]? = some item ∧
        ProjectViewModel.indexOfChild.loop item cs i = i + (k : Int) := by
  induction cs with
  | nil => intro i hmem; simp at hmem
  | cons c cs ih =>
    intro i hmem
    by_cases hc : c = item
    · exact ⟨0, by simp [hc], by simp [ProjectViewModel.indexOfChild.loop, hc]⟩
    · have hmem2 : item ∈ cs := by
        rcases List.mem_cons.mp hmem with h1 | h1
        · exact absurd h1.symm hc
        · exact h1
      obtain ⟨k, hk, hloop⟩ := ih (i + 1) hmem2
      refine ⟨k + 1, by simpa using hk, ?_⟩
      simp only [ProjectViewModel.indexOfChild.loop, hc, if_false, hloop]
      push_cast
      ring

/-- In a list without repetition the scan returns the position of each entry. -/
theorem indexOfChild_loop_of_nodup (cs : List Nat) (hnd : cs.Nodup) :
    ∀ (i : Int) (r : Nat) (c : Nat), cs[r]? = some c →
      ProjectViewModel.indexOfChild.loop c cs i = i + (r : Int) := by
  induction cs with
  | nil => intro i r c hr; simp at hr
  | cons x xs ih =>
    intro i r c hr
    have hnd2 := List.nodup_cons.mp hnd
    cases r with
    | zero =>
      simp only [List.getElem?_cons_zero, Option.some.injEq] at hr
      simp [ProjectViewModel.indexOfChild.loop, hr]
    | succ k =>
      simp only [List.getElem?_cons_succ] at hr
      have hmem : c ∈ xs := List.getElem?_mem hr
      have hne : ¬ x = c := fun hEq => hnd2.1 (hEq ▸ hmem)
      simp only [ProjectViewModel.indexOfChild.loop, hne, if_false, ih hnd2.2 (i + 1) k c hr]
      push_cast
      ring

theorem WellFormed.at_item {h : Heap} {root : Nat} (hwf : WellFormed h root) {a : Nat}
    {it : Item} (ha : h[a]? = some it) :
    parentListsChild h root a it = true ∧ childrenReferBack h a it = true ∧
      it.children_.Nodup := by
  obtain ⟨hlt, hget⟩ := List.getElem?_eq_some.mp ha
  have := hwf.2 a hlt
  rw [hget] at this
  exact ⟨this.2.1, this.2.2.1, this.2.2.2⟩

/-- In a well-formed tree a non-root object has a live parent that lists it. -/
theorem WellFormed.parent_lists {h : Heap} {root : Nat} (hwf : WellFormed h root) {a : Nat}
    {it : Item} (ha : h[a]? = some it) (hne : a ≠ root) :
    ∃ q par, it.parent_ = some q ∧ h[q]? = some par ∧ a ∈ par.children_ := by
  have hpl := (hwf.at_item ha).1
  unfold parentListsChild at hpl
  cases hp : it.parent_ with
  | none =>
    simp only [hp, beq_iff_eq] at hpl
    exact absurd hpl hne
  | some q =>
    simp only [hp] at hpl
    cases hq : h[q]? with
    | none => simp [hq] at hpl
    | some par =>
      simp only [hq, List.contains_eq_any_beq, List.any_eq_true, beq_iff_eq] at hpl
      obtain ⟨x, hx, hxa⟩ := hpl
      exact ⟨q, par, rfl, hq, by rw [hxa]; exact hx⟩

/-- In a well-formed tree the child at a row in range is a live non-root object whose parent
reference is the object it was read from and whose own row, as `indexOfChild` computes it, is
the row it was read at. -/
theorem WellFormed.child_at {h : Heap} {root : Nat} (hwf : WellFormed h root) {a : Nat}
    {it : Item} (ha : h[a]? = some it) (r : Int) (hr0 : 0 ≤ r) (hr : r < it.child_count) :
    ∃ c ch, it.children_[r.toNat]? = some c ∧ it.child r = some (some c) ∧
      h[c]? = some ch ∧ ch.parent_ = some a ∧ c ≠ root ∧
      ProjectViewModel.indexOfChild h (some c) = some r := by
  obtain ⟨_, hcb, hnd⟩ := hwf.at_item ha
  have hlen : r.toNat < it.children_.length := by
    simp only [Item.child_count] at hr
    omega
  have hget : it.children_[r.toNat]? = some it.children_[r.toNat] :=
    List.getElem?_eq_getElem hlen
  have hmem : it.children_[r.toNat] ∈ it.children_ := List.getElem_mem hlen
  simp only [childrenReferBack, List.all_eq_true] at hcb
  have hc := hcb _ hmem
  cases hq : h[it.children_[r.toNat]]? with
  | none => simp [hq] at hc
  | some ch =>
    simp only [hq, beq_iff_eq] at hc
    have hroot := hwf.1
    refine ⟨_, ch, hget, ?_, hq, hc, ?_, ?_⟩
    · simp [Item.child, hr0, hget]
    · intro hEq
      rw [← hEq, hq] at hroot
      simp [hc] at hroot
    · have hloop := indexOfChild_loop_of_nodup it.children_ hnd 0 r.toNat _ hget
      have hcast : ((r.toNat : Nat) : Int) = r := Int.toNat_of_nonneg hr0
      simp only [ProjectViewModel.indexOfChild, Heap.deref, hq, hc, ha, hloop, hcast, zero_add]

/-- In a well-formed tree a non-root object occupies the row `indexOfChild` computes for
it among the children of its parent. -/
theorem WellFormed.row_of_item {h : Heap} {root : Nat} (hwf : WellFormed h root) {a : Nat}
    {it : Item} (ha : h[a]? = some it) (hne : a ≠ root) :
    ∃ (i : Int) (q : Nat) (par : Item),
      ProjectViewModel.indexOfChild h (some a) = some i ∧ 0 ≤ i ∧ i < par.child_count ∧
      it.parent_ = some q ∧ h[q]? = some par ∧ par.child i = some (some a) := by
  obtain ⟨q, par, hp, hq, hmem⟩ := hwf.parent_lists ha hne
  obtain ⟨k, hk, hloop⟩ := indexOfChild_loop_mem a par.children_ 0 hmem
  have hklt : k < par.children_.length := by
    by_contra hge
    rw [List.getElem?_eq_none (by omega)] at hk
    cases hk
  refine ⟨(k : Int), q, par, ?_, by omega, ?_, hp, hq, ?_⟩
  · simp [ProjectViewModel.indexOfChild, Heap.deref, ha, hp, hq, hloop]
  · simp only [Item.child_count]
    omega
  · simp [Item.child, hk]

/-- The locator of a live object of a well-formed tree: the invalid locator for the root, a
valid locator `(indexOfChild(a), 0, a)` otherwise. -/
theorem WellFormed.locatorOf_eq {h : Heap} {root : Nat} (hwf : WellFormed h root) {a : Nat}
    {it : Item} (ha : h[a]? = some it) :
    ∃ L, locatorOf h root a = some L ∧
      (a = root → L = QModelIndex.invalid) ∧
      (a ≠ root → ∃ i : Int, ProjectViewModel.indexOfChild h (some a) = some i ∧ 0 ≤ i ∧
        L = createIndex i 0 (some a)) := by
  by_cases hr : a = root
  · refine ⟨QModelIndex.invalid, by simp [locatorOf, hr], fun _ => rfl, fun hne => absurd hr hne⟩
  · obtain ⟨i, q, par, hi, hi0, _, _, _, _⟩ := hwf.row_of_item ha hr
    refine ⟨createIndex i 0 (some a), by simp [locatorOf, hr, hi], fun hEq => absurd hEq hr,
      fun _ => ⟨i, hi, hi0, rfl⟩⟩

/-- In a well-formed tree attached to the model, `index` at a row in range under the locator
of `P` hands out the locator of the child at that row, and `parent` maps it back. -/
theorem index_child_row {h : Heap} {proj : Project} (hwf : WellFormed h proj.root) {P : Nat}
    {itP : Item} (hP : h[P]? = some itP) {L_P : QModelIndex}
    (hL : locatorOf h proj.root P = some L_P) (r : Int) (hr0 : 0 ≤ r)
    (hr : r < itP.child_count) :
    ∃ c, itP.child r = some (some c) ∧
      (ProjectViewModel.new.set_project (some proj)).index h r 0 L_P
        = some (createIndex r 0 (some c)) ∧
      locatorOf h proj.root c = some (createIndex r 0 (some c)) ∧
      (createIndex r 0 (some c)).isValid = true ∧
      (ProjectViewModel.new.set_project (some proj)).parent h (createIndex r 0 (some c))
        = some L_P := by
  obtain ⟨c, ch, _, hchild, hc, hcp, hcne, hcidx⟩ := hwf.child_at hP r hr0 hr
  obtain ⟨L, hL2, hroot, hnonroot⟩ := hwf.locatorOf_eq hP
  rw [hL] at hL2
  simp only [Option.some.injEq] at hL2
  subst hL2
  have hloc : locatorOf h proj.root c = some (createIndex r 0 (some c)) := by
    simp [locatorOf, hcne, hcidx]
  have hvalidc : (createIndex r 0 (some c)).isValid = true := by
    simp [QModelIndex.isValid, createIndex, hr0]
  have hn : ¬ (r < 0 ∨ (0 : Int) < 0) := by omega
  have hd2 : h.deref (createIndex r 0 (some c)).internalPointer = some ch := by
    simp [createIndex, Heap.deref, hc]
  refine ⟨c, hchild, ?_, hloc, hvalidc, ?_⟩
  · by_cases hPr : P = proj.root
    · rw [hroot hPr]
      have hR : h[proj.root]? = some itP := hPr ▸ hP
      have hrows : (ProjectViewModel.new.set_project (some proj)).rowCount h QModelIndex.invalid
          = some itP.child_count := by
        simp [ProjectViewModel.rowCount, ProjectViewModel.set_project, Heap.deref, hR]
      have hhas : (ProjectViewModel.new.set_project (some proj)).hasIndex h r 0
          QModelIndex.invalid = some true := by
        simp only [ProjectViewModel.hasIndex, hn, if_false, hrows]
        simp [hr, ProjectViewModel.columnCount, ProjectViewModel.set_project,
          ProjectViewModel.new]
      have hinv : QModelIndex.invalid.isValid = false := by decide
      simp only [ProjectViewModel.index, hhas, hinv, Bool.false_eq_true, if_false]
      simp [ProjectViewModel.set_project, Heap.deref, hR, hchild]
    · obtain ⟨iP, _, hiP0, hLeq⟩ := hnonroot hPr
      rw [hLeq]
      have hvalid : (createIndex iP 0 (some P)).isValid = true := by
        simp [QModelIndex.isValid, createIndex, hiP0]
      have hneq : createIndex iP 0 (some P) ≠ QModelIndex.invalid := by
        intro hEq
        have := congrArg QModelIndex.model hEq
        simp [createIndex, QModelIndex.invalid] at this
      have hrows : (ProjectViewModel.new.set_project (some proj)).rowCount h
          (createIndex iP 0 (some P)) = some itP.child_count := by
        simp only [ProjectViewModel.rowCount, ProjectViewModel.set_project, hneq, if_false]
        simp [createIndex, Heap.deref, hP]
      have hhas : (ProjectViewModel.new.set_project (some proj)).hasIndex h r 0
          (createIndex iP 0 (some P)) = some true := by
        simp only [ProjectViewModel.hasIndex, hn, if_false, hrows]
        simp [hr, ProjectViewModel.columnCount, ProjectViewModel.set_project,
          ProjectViewModel.new]
      have hderef : h.deref (createIndex iP 0 (some P)).internalPointer = some itP := by
        simp [createIndex, Heap.deref, hP]
      simp only [ProjectViewModel.index, hhas, hvalid, if_true, hderef, hchild]
  · by_cases hPr : P = proj.root
    · rw [hroot hPr]
      subst hPr
      simp only [ProjectViewModel.parent, hd2, ProjectViewModel.set_project, hcp, if_true]
    · obtain ⟨iP, hiP, hiP0, hLeq⟩ := hnonroot hPr
      rw [hLeq]
      have hpne : ¬ (some P = some proj.root) := by
        intro hEq
        exact hPr (Option.some.inj hEq)
      have hgt : iP > -1 := by omega
      simp only [ProjectViewModel.parent, hd2, ProjectViewModel.set_project, hcp, hpne, if_false,
        hiP, hgt, if_true]

theorem dropMimeData_loop_noop (m : ProjectViewModel) (drop : QModelIndex) (T : Nat) (h : Heap)
    (emitted : List Signal) :
    ∀ entries : Payload,
      (∀ e ∈ entries, ∃ it, h.deref e.2 = some it ∧ (e.2 = some T ∨ it.parent_ = some T)) →
      ProjectViewModel.dropMimeData.loop m drop T entries h emitted = some (h, emitted) := by
  intro entries
  induction entries with
  | nil => intro _; simp [ProjectViewModel.dropMimeData.loop]
  | cons e rest ih =>
    intro hall
    obtain ⟨r, item⟩ := e
    obtain ⟨it, hd, hor⟩ := hall (r, item) (List.mem_cons_self _ _)
    have hrest := ih (fun e he => hall e (List.mem_cons_of_mem _ he))
    cases item with
    | none => simp [Heap.deref] at hd
    | some a =>
      simp only at hd hor
      have hcond : ¬ (some a ≠ some T ∧ it.parent_ ≠ some T) := by
        intro hc
        rcases hor with h1 | h1
        · exact hc.1 h1
        · exact hc.2 h1
      simp only [ProjectViewModel.dropMimeData.loop, hd, hcond, if_false]
      exact hrest

/-- Under the inherited acceptance check with copy and move supported, dropping folder 1 of
the sample tree onto its descendant folder 2 is accepted and reparents it, for a move and for a
copy alike. -/
theorem dropMimeData_cycle_inherited_check :
    ∀ action ∈ [Qt.MoveAction, Qt.CopyAction],
      ((sampleModel.dropMimeData
          (QAbstractItemModel.canDropMimeData (Qt.CopyAction ||| Qt.MoveAction)) sampleHeap
          [(mimeType, [(0, some 1)])] action (-1) (-1) (createIndex 0 0 (some 2))).map
        (fun res => (res.1, (res.2.1[1]?).map Item.parent_, (res.2.1[2]?).map Item.parent_)))
        = some (true, some (some 2), some (some 1)) := by
  decide

/-! ### Claims on the project tree model -/

/-- C7: the payload written by `mimeData` is stored under the private MIME type and holds
exactly one entry per distinct item referenced by a valid locator of the selection (no item
twice; an item is present iff some valid locator references it, so invalid locators add
nothing), each entry carrying the row of the first valid locator of its item, the entries
ordered by the position of that first locator; a selection of 3 columns × 2 rows over two
items yields exactly two entries. -/
theorem mimeData_one_entry_per_item (indexes : List QModelIndex) :
    ∃ entries : Payload,
      ProjectViewModel.mimeData indexes = [(mimeType, entries)] ∧
      (entries.map Prod.snd).Nodup ∧
      (∀ p : ItemPtr, p ∈ entries.map Prod.snd ↔
        ∃ ix ∈ indexes, ix.isValid = true ∧ ix.internalPointer = p) ∧
      (∀ e ∈ entries,
        (indexes.find? (QModelIndex.selects e.2)).map QModelIndex.row = some e.1) ∧
      (entries.map (fun e => indexes.findIdx (QModelIndex.selects e.2))).Pairwise (· < ·) ∧
      ProjectViewModel.mimeData sampleSelection = [(mimeType, [(0, some 1), (1, some 3)])] := by
  refine ⟨firstSeen [] indexes, ?_, firstSeen_nodup indexes [], ?_, ?_, firstSeen_order indexes [],
    by decide⟩
  · simp [ProjectViewModel.mimeData, mimeData_loop_eq]
  · intro p
    simpa using firstSeen_mem indexes [] p
  · intro e he
    exact firstSeen_row indexes [] e he

/-- C6: on a well-formed tree attached to the model, every live item `P` has a locator `L_P`,
the invalid locator for the root and `(indexOfChild(P), 0, P)` with `indexOfChild(P) ≥ 0`
otherwise.  A non-root `P` sits at row `indexOfChild(P)` of its parent `Q`, and
`index(indexOfChild(P), 0, L_Q)` is `L_P`: the locator is the one `index` hands out for `P`.
For every row `r` with `0 ≤ r < child_count(P)`, `index(r, 0, L_P)` is the valid locator
`(r, 0, c)` of the child `c` at that row, it is the locator `L_c` of `c`, and its `parent` is
`L_P`, which for the root is the invalid locator. -/
theorem index_parent_roundtrip (h : Heap) (proj : Project) (hwf : WellFormed h proj.root)
    (P : Nat) (itP : Item) (hP : h[P]? = some itP) :
    ∃ L_P, locatorOf h proj.root P = some L_P ∧
      (P = proj.root → L_P = QModelIndex.invalid) ∧
      (P ≠ proj.root →
        ∃ (iP : Int) (Q : Nat) (itQ : Item) (L_Q : QModelIndex),
          ProjectViewModel.indexOfChild h (some P) = some iP ∧ 0 ≤ iP ∧
          L_P = createIndex iP 0 (some P) ∧
          itP.parent_ = some Q ∧ h[Q]? = some itQ ∧ itQ.child iP = some (some P) ∧
          locatorOf h proj.root Q = some L_Q ∧
          (ProjectViewModel.new.set_project (some proj)).index h iP 0 L_Q = some L_P ∧
          (ProjectViewModel.new.set_project (some proj)).parent h L_P = some L_Q) ∧
      (∀ r : Int, 0 ≤ r → r < itP.child_count →
        ∃ c, itP.child r = some (some c) ∧
          (ProjectViewModel.new.set_project (some proj)).index h r 0 L_P
            = some (createIndex r 0 (some c)) ∧
          locatorOf h proj.root c = some (createIndex r 0 (some c)) ∧
          (createIndex r 0 (some c)).isValid = true ∧
          (ProjectViewModel.new.set_project (some proj)).parent h (createIndex r 0 (some c))
            = some L_P) := by
  obtain ⟨L_P, hL, hroot, hnonroot⟩ := hwf.locatorOf_eq hP
  refine ⟨L_P, hL, hroot, ?_, ?_⟩
  · intro hne
    obtain ⟨iP, hiP, hiP0, hLeq⟩ := hnonroot hne
    obtain ⟨i2, Q, itQ, hi2, _, hi2lt, hpar, hQ, hchildQ⟩ := hwf.row_of_item hP hne
    rw [hiP] at hi2
    simp only [Option.some.injEq] at hi2
    subst hi2
    obtain ⟨L_Q, hLQ, _, _⟩ := hwf.locatorOf_eq hQ
    obtain ⟨c, hc1, hc2, _, _, hc5⟩ := index_child_row hwf hQ hLQ iP hiP0 hi2lt
    rw [hchildQ] at hc1
    simp only [Option.some.injEq] at hc1
    subst hc1
    refine ⟨iP, Q, itQ, L_Q, hiP, hiP0, hLeq, hpar, hQ, hchildQ, hLQ, ?_, ?_⟩
    · rw [hLeq]; exact hc2
    · rw [hLeq]; exact hc5
  · intro r hr0 hr
    exact index_child_row hwf hP hL r hr0 hr

/-- C6, witness: in the sample tree, folder 1 is row 0 of the root and has the locator
(0, 0, 1), which `index(0, 0, QModelIndex())` hands out; its child at row 0 is item 2, and the
parent of `index(0, 0, (0, 0, 1)) = (0, 0, 2)` is (0, 0, 1) again; row 1 of the root is item 3
with locator (1, 0, 3), whose parent is the invalid locator. -/
theorem index_parent_roundtrip_witness :
    WellFormed sampleHeap 0 ∧
    locatorOf sampleHeap 0 1 = some (createIndex 0 0 (some 1)) ∧
    sampleModel.index sampleHeap 0 0 QModelIndex.invalid = some (createIndex 0 0 (some 1)) ∧
    sampleModel.index sampleHeap 0 0 (createIndex 0 0 (some 1))
      = some (createIndex 0 0 (some 2)) ∧
    sampleModel.parent sampleHeap (createIndex 0 0 (some 2)) = some (createIndex 0 0 (some 1)) ∧
    sampleModel.index sampleHeap 1 0 QModelIndex.invalid = some (createIndex 1 0 (some 3)) ∧
    sampleModel.parent sampleHeap (createIndex 1 0 (some 3)) = some QModelIndex.invalid := by
  have hwf : WellFormed sampleHeap 0 := by decide
  obtain ⟨L1, hL1, _, hnr1, hrows1⟩ := index_parent_roundtrip sampleHeap ⟨0⟩ hwf 1
    { type := ItemType.kFolder, parent_ := some 0, children_ := [2] } rfl
  obtain ⟨L0, hL0, hr0, _, hrows0⟩ := index_parent_roundtrip sampleHeap ⟨0⟩ hwf 0
    { type := ItemType.kFolder, parent_ := none, children_ := [1, 3] } rfl
  have hL1v : locatorOf sampleHeap 0 1 = some (createIndex 0 0 (some 1)) := by decide
  have hL1eq : L1 = createIndex 0 0 (some 1) := by
    rw [hL1v] at hL1
    exact (Option.some.inj hL1).symm
  have hL0eq : L0 = QModelIndex.invalid := hr0 rfl
  subst hL1eq
  subst hL0eq
  obtain ⟨c1, hc1, hi1, _, _, hp1⟩ := hrows1 0 (by decide) (by decide)
  have hc1v : c1 = 2 := by
    have : (Item.mk ItemType.kFolder (some 0) [2]).child 0 = some (some 2) := by decide
    rw [this] at hc1
    exact (Option.some.inj (Option.some.inj hc1)).symm
  subst hc1v
  obtain ⟨c0, hc0, hi0, _, _, _⟩ := hrows0 0 (by decide) (by decide)
  have hc0v : c0 = 1 := by
    have : (Item.mk ItemType.kFolder none [1, 3]).child 0 = some (some 1) := by decide
    rw [this] at hc0
    exact (Option.some.inj (Option.some.inj hc0)).symm
  subst hc0v
  obtain ⟨c3, hc3, hi3, _, _, hp3⟩ := hrows0 1 (by decide) (by decide)
  have hc3v : c3 = 3 := by
    have : (Item.mk ItemType.kFolder none [1, 3]).child 1 = some (some 3) := by decide
    rw [this] at hc3
    exact (Option.some.inj (Option.some.inj hc3)).symm
  subst hc3v
  exact ⟨hwf, hL1v, hi0, hi1, hp1, hi3, hp3⟩

/-- C8: for a drop that the acceptance check accepts, carrying the recognized MIME type, onto a
target `T` (the Folder item the valid drop locator references, or the root when the drop
locator is invalid), if every payload item is `T` itself or has `T` as its current parent, then
`dropMimeData` returns true, emits no row-move notification and leaves the memory of items
(every parent reference and every child sequence) as it was. -/
theorem dropMimeData_noop (m : ProjectViewModel) (canDropMimeData : CanDrop) (h : Heap)
    (data : MimeData) (action : Nat) (row column : Int) (drop : QModelIndex) (proj : Project)
    (T : Nat) (itT : Item)
    (hproj : m.project_ = some proj)
    (hacc : canDropMimeData data action row column drop = true)
    (hfmt : data.formats.contains mimeType = true)
    (hT : h[T]? = some itT)
    (htarget : (drop.isValid = true ∧ drop.internalPointer = some T ∧
        itT.type = ItemType.kFolder) ∨ (drop.isValid = false ∧ T = proj.root))
    (hitems : ∀ e ∈ data.data mimeType,
      e.2 = some T ∨ ∃ it, h.deref e.2 = some it ∧ it.parent_ = some T) :
    m.dropMimeData canDropMimeData h data action row column drop = some (true, h, []) := by
  have hloop := dropMimeData_loop_noop m drop T h [] (data.data mimeType) (by
    intro e he
    rcases hitems e he with h1 | ⟨it, h1, h2⟩
    · exact ⟨itT, by simp [h1, Heap.deref, hT], Or.inl h1⟩
    · exact ⟨it, h1, Or.inr h2⟩)
  by_cases hact : action = Qt.IgnoreAction
  · subst hact
    simp [ProjectViewModel.dropMimeData, hacc]
  · rcases htarget with ⟨hv, hptr, hty⟩ | ⟨hv, hroot⟩
    · simp only [ProjectViewModel.dropMimeData, hacc, hact, hfmt, hv, hptr, Heap.deref, hT, hty]
      simp [hloop]
    · subst hroot
      simp only [ProjectViewModel.dropMimeData, hacc, hact, hfmt, hv, hproj]
      simp [hloop]

/-- C8, witness: in the sample tree, dropping items 2 (a child of folder 1) and 1 (the folder
itself) onto folder 1 returns true with no notification and the tree unchanged. -/
theorem dropMimeData_noop_witness :
    sampleModel.dropMimeData acceptAll sampleHeap [(mimeType, [(0, some 2), (0, some 1)])]
      Qt.MoveAction (-1) (-1) (createIndex 0 0 (some 1)) = some (true, sampleHeap, []) :=
  dropMimeData_noop sampleModel acceptAll sampleHeap [(mimeType, [(0, some 2), (0, some 1)])]
    Qt.MoveAction (-1) (-1) (createIndex 0 0 (some 1)) ⟨0⟩ 1
    { type := ItemType.kFolder, parent_ := some 0, children_ := [2] }
    rfl rfl (by decide) rfl (Or.inl ⟨by decide, rfl, rfl⟩) (by decide)

/-- The inherited acceptance check never accepts a drop whose action is `Qt::IgnoreAction`. -/
theorem canDropMimeData_rejects_ignoreAction (supportedDropActions : Nat) (data : MimeData)
    (row column : Int) (drop : QModelIndex) :
    QAbstractItemModel.canDropMimeData supportedDropActions data Qt.IgnoreAction row column drop
      = false := by
  simp [QAbstractItemModel.canDropMimeData, Qt.IgnoreAction]

/-- The inherited acceptance check never accepts a drop that lacks the private MIME type. -/
theorem canDropMimeData_rejects_unrecognized (supportedDropActions : Nat) (data : MimeData)
    (action : Nat) (row column : Int) (drop : QModelIndex)
    (hfmt : data.formats.contains mimeType = false) :
    QAbstractItemModel.canDropMimeData supportedDropActions data action row column drop
      = false := by
  have hnm : mimeType ∉ data.formats := by simpa using hfmt
  simp [QAbstractItemModel.canDropMimeData, ProjectViewModel.mimeTypes, hnm]

/-- Whatever the acceptance check, a false return of `dropMimeData` leaves the memory of items
as it was and emits nothing. -/
theorem dropMimeData_false_unchanged (m : ProjectViewModel) (canDropMimeData : CanDrop)
    (h : Heap) (data : MimeData) (action : Nat) (row column : Int) (drop : QModelIndex)
    (h1 : Heap) (emitted : List Signal)
    (hres : m.dropMimeData canDropMimeData h data action row column drop
      = some (false, h1, emitted)) : h1 = h ∧ emitted = [] := by
  unfold ProjectViewModel.dropMimeData at hres
  split at hres
  · simp only [Option.some.injEq, Prod.mk.injEq, true_and] at hres
    exact ⟨hres.1.symm, hres.2.symm⟩
  · split at hres
    · simp at hres
    · split at hres
      · simp only at hres
        split at hres
        · simp at hres
        · simp only [Option.some.injEq, Prod.mk.injEq, true_and] at hres
          exact ⟨hres.1.symm, hres.2.symm⟩
        · split at hres
          · simp at hres
          · simp at hres
      · simp only [Option.some.injEq, Prod.mk.injEq, true_and] at hres
        exact ⟨hres.1.symm, hres.2.symm⟩

/-- C9: with the acceptance check the model inherits from the toolkit, whatever actions it
supports: whenever `dropMimeData` returns false the memory of items is unchanged and no
row-move notification was emitted; it returns false when the drop is not acceptable, when the
MIME type of the payload is not recognized, and for every drop of the recognized MIME type
whose valid locator references a non-Folder item, whatever the action and whatever the payload
contains. -/
theorem dropMimeData_rejects_atomically (m : ProjectViewModel) (supportedDropActions : Nat)
    (h : Heap) (data : MimeData) (action : Nat) (row column : Int) (drop : QModelIndex) :
    (∀ h1 emitted,
      m.dropMimeData (QAbstractItemModel.canDropMimeData supportedDropActions) h data action
        row column drop = some (false, h1, emitted) → h1 = h ∧ emitted = []) ∧
    (QAbstractItemModel.canDropMimeData supportedDropActions data action row column drop = false →
      m.dropMimeData (QAbstractItemModel.canDropMimeData supportedDropActions) h data action
        row column drop = some (false, h, [])) ∧
    (data.formats.contains mimeType = false →
      m.dropMimeData (QAbstractItemModel.canDropMimeData supportedDropActions) h data action
        row column drop = some (false, h, [])) ∧
    (∀ (a : Nat) (target : Item),
      data.formats.contains mimeType = true →
      drop.isValid = true → drop.internalPointer = some a → h[a]? = some target →
      target.type ≠ ItemType.kFolder →
      m.dropMimeData (QAbstractItemModel.canDropMimeData supportedDropActions) h data action
        row column drop = some (false, h, [])) := by
  have hrej : QAbstractItemModel.canDropMimeData supportedDropActions data action row column drop
      = false →
      m.dropMimeData (QAbstractItemModel.canDropMimeData supportedDropActions) h data action
        row column drop = some (false, h, []) := by
    intro hr
    simp [ProjectViewModel.dropMimeData, hr]
  refine ⟨?_, hrej, ?_, ?_⟩
  · intro h1 emitted hres
    exact dropMimeData_false_unchanged m _ h data action row column drop h1 emitted hres
  · intro hfmt
    exact hrej (canDropMimeData_rejects_unrecognized supportedDropActions data action row column
      drop hfmt)
  · intro a target hfmt hv hptr ha hty
    cases hacc : QAbstractItemModel.canDropMimeData supportedDropActions data action row column
        drop with
    | false => exact hrej hacc
    | true =>
      have hact : action ≠ Qt.IgnoreAction := by
        intro hEq
        rw [hEq, canDropMimeData_rejects_ignoreAction] at hacc
        cases hacc
      simp [ProjectViewModel.dropMimeData, hacc, hact, hfmt, hv, hptr, Heap.deref, ha, hty]

/-- C9, witness: in the sample tree, with copy and move supported, a move of item 1 onto the
footage item 3 passes the acceptance check and is rejected with the tree unchanged and no
notification; the same drop with `Qt::IgnoreAction` is rejected by the acceptance check. -/
theorem dropMimeData_rejects_atomically_witness :
    QAbstractItemModel.canDropMimeData (Qt.CopyAction ||| Qt.MoveAction)
      [(mimeType, [(0, some 1)])] Qt.MoveAction (-1) (-1) (createIndex 1 0 (some 3)) = true ∧
    sampleModel.dropMimeData (QAbstractItemModel.canDropMimeData (Qt.CopyAction ||| Qt.MoveAction))
      sampleHeap [(mimeType, [(0, some 1)])] Qt.MoveAction (-1) (-1) (createIndex 1 0 (some 3))
      = some (false, sampleHeap, []) ∧
    sampleModel.dropMimeData (QAbstractItemModel.canDropMimeData (Qt.CopyAction ||| Qt.MoveAction))
      sampleHeap [(mimeType, [(0, some 1)])] Qt.IgnoreAction (-1) (-1) (createIndex 1 0 (some 3))
      = some (false, sampleHeap, []) :=
  ⟨by decide,
   (dropMimeData_rejects_atomically sampleModel (Qt.CopyAction ||| Qt.MoveAction) sampleHeap
      [(mimeType, [(0, some 1)])] Qt.MoveAction (-1) (-1) (createIndex 1 0 (some 3))).2.2.2 3
      { type := ItemType.kFootage, parent_ := some 0, children_ := [] }
      (by decide) (by decide) rfl rfl (by decide),
   (dropMimeData_rejects_atomically sampleModel (Qt.CopyAction ||| Qt.MoveAction) sampleHeap
      [(mimeType, [(0, some 1)])] Qt.IgnoreAction (-1) (-1) (createIndex 1 0 (some 3))).2.2.2 3
      { type := ItemType.kFootage, parent_ := some 0, children_ := [] }
      (by decide) (by decide) rfl rfl (by decide)⟩

/-- C10, failing input: in the well-formed sample tree, folder 1 is an ancestor of folder 2;
dropping folder 1 onto folder 2 returns true and leaves folders 1 and 2 as parent of
each other, so that folder 1 is its own ancestor, its parent chain no longer reaches the root, and
the tree is not well-formed. -/
theorem dropMimeData_onto_descendant :
    WellFormed sampleHeap 0 ∧
    hasAncestor sampleHeap 1 sampleHeap.length 2 = true ∧
    (sampleHeap[2]?).map Item.type = some ItemType.kFolder ∧
    ∃ h1 emitted,
      sampleModel.dropMimeData acceptAll sampleHeap [(mimeType, [(0, some 1)])]
        Qt.MoveAction (-1) (-1) (createIndex 0 0 (some 2)) = some (true, h1, emitted) ∧
      (h1[1]?).map Item.parent_ = some (some 2) ∧
      (h1[2]?).map Item.parent_ = some (some 1) ∧
      hasAncestor h1 1 h1.length 1 = true ∧
      reachesRoot h1 0 h1.length 1 = false ∧
      ¬ WellFormed h1 0 := by
  refine ⟨by decide, by decide, by decide, ?_⟩
  refine ⟨[ { type := ItemType.kFolder, parent_ := none, children_ := [3] },
    { type := ItemType.kFolder, parent_ := some 2, children_ := [2] },
    { type := ItemType.kFolder, parent_ := some 1, children_ := [4, 1] },
    { type := ItemType.kFootage, parent_ := some 0, children_ := [] },
    { type := ItemType.kFootage, parent_ := some 2, children_ := [] } ],
    [Signal.beginMoveRows QModelIndex.invalid 0 0 (createIndex 0 0 (some 2)) 1,
      Signal.endMoveRows], ?_⟩
  decide

end Olive
